import Mathlib

/-
Verification development for the local-rag repository (src/main.ts).

Modelling conventions:
- JavaScript strings are modelled as `List Char`.
- JavaScript numbers appearing in string/array bookkeeping are modelled as
  `Nat`/`Int` (all the relevant quantities are integers in the source).
- Floating-point arithmetic in `cosineSimilarity` is idealised over `ℝ`;
  `NaN` (which arises from arithmetic on `undefined`) is modelled by `none`
  in an `Option ℝ` carrier.
- Fallible operations are modelled with `Option`/`Except`.
Each definition is annotated with the source function it embeds.
-/

/-! ### Generic string helpers (JS string built-ins used by src/main.ts) -/

/-- The character class `\w` of JavaScript regular expressions:
ASCII letters, digits and underscore. -/
def jsWordChar (c : Char) : Bool := c.isAlpha || c.isDigit || c = '_'

/-- `String.prototype.toLowerCase` (the source only ever lower-cases ASCII
text; `Char.toLower` is the per-character mapping). -/
def lowerStr (s : List Char) : List Char := s.map Char.toLower

/-- `String.prototype.trim`: remove leading and trailing whitespace. -/
def jsTrim (s : List Char) : List Char :=
  ((s.dropWhile Char.isWhitespace).reverse.dropWhile Char.isWhitespace).reverse

/-- Single-pass accumulator for `runsBy`: `acc` is the (reversed) run of
`p`-characters currently being read, `none` when outside a run. -/
def runsByAux (p : Char → Bool) : List Char → Option (List Char) → List (List Char)
  | [], none => []
  | [], some run => [run.reverse]
  | c :: t, none =>
    if p c then runsByAux p t (some [c]) else runsByAux p t none
  | c :: t, some run =>
    if p c then runsByAux p t (some (c :: run)) else run.reverse :: runsByAux p t none

/-- The maximal runs of characters satisfying `p`, in order.
`runsBy p s` is `s.split(/X+/)` — for `X` the complement class of `p` —
with the empty fragments dropped: splitting a string on the maximal runs of
characters *not* satisfying `p` yields exactly the maximal `p`-runs, plus
empty strings at either end which the callers in the source immediately
filter out (see `keywordsOf`, `approximateTokenCount`). -/
def runsBy (p : Char → Bool) (s : List Char) : List (List Char) := runsByAux p s none

/-- Single-pass accumulator for `collapseNewlines`: the flag records whether
the previous character was a newline (i.e. we are inside a newline run). -/
def collapseNLAux : Bool → List Char → List Char
  | _, [] => []
  | inRun, c :: t =>
    if c = '\n' then
      if inRun then collapseNLAux true t else ' ' :: collapseNLAux true t
    else c :: collapseNLAux false t

/-- `snippet.replace(/\n+/g, " ")` from `searchNotes`: every maximal run of
newline characters is replaced by a single space. -/
def collapseNewlines (s : List Char) : List Char := collapseNLAux false s

/-- `String.prototype.indexOf`: the least index at which `needle` occurs in
the haystack, or `none` (JS `-1`) when there is no occurrence. -/
def idxOf (needle : List Char) : List Char → Option Nat
  | [] => if needle.isEmpty then some 0 else none
  | c :: t => if needle.isPrefixOf (c :: t) then some 0 else (idxOf needle t).map (· + 1)

/-- `String.prototype.includes`: substring containment. -/
def containsSub (needle hay : List Char) : Bool := (idxOf needle hay).isSome

/-! ### Lexical filter (`RAGChatPlugin.searchNotes`, src/main.ts lines 129-157) -/

/-- The fixed stop-word set of `searchNotes`. -/
def stopWords : List (List Char) :=
  ["what".toList, "are".toList, "the".toList, "is".toList, "of".toList, "on".toList,
   "to".toList, "in".toList, "and".toList, "or".toList, "a".toList, "an".toList,
   "for".toList, "this".toList, "that".toList, "with".toList]

/-- `query.toLowerCase().split(/\W+/).filter((word) => word && !STOP_WORDS.has(word))`.
`split(/\W+/)` yields the maximal `\w`-runs plus possibly empty fragments at
the two ends; the `word &&` conjunct of the source's filter discards exactly
those empty fragments, so the composite is `runsBy jsWordChar` followed by
the same filter (the emptiness test is kept for fidelity). -/
def keywordsOf (query : List Char) : List (List Char) :=
  (runsBy jsWordChar (lowerStr query)).filter
    (fun w => !w.isEmpty && !stopWords.contains w)

/-- A markdown file of the vault together with its content
(`file` + `await this.app.vault.read(file)`). -/
structure Doc where
  name : List Char
  content : List Char
deriving DecidableEq

/-- One `{ file, snippet }` search result. -/
structure Cand where
  name : List Char
  snippet : List Char
deriving DecidableEq

/-- One iteration of the `firstIdx` loop of `searchNotes`: a keyword whose
`indexOf` is not `-1` replaces the current value when that is still `-1` or
the new index is smaller. -/
def firstIdxStep (hay : List Char) (firstIdx : Int) (w : List Char) : Int :=
  match idxOf w hay with
  | none => firstIdx
  | some i => if firstIdx = -1 ∨ (i : Int) < firstIdx then (i : Int) else firstIdx

/-- The `firstIdx` accumulation loop of `searchNotes`, starting from `-1`. -/
def computeFirstIdx (keywords : List (List Char)) (hay : List Char) : Int :=
  keywords.foldl (firstIdxStep hay) (-1)

/-- `String.prototype.slice` for the non-negative index arguments that occur
in the source (every call clamps its start with `Math.max(0, ·)` and uses a
non-negative end). -/
def jsSlice (s : List Char) (start stop : Int) : List Char :=
  (s.drop start.toNat).take (stop.toNat - start.toNat)

/-- The body of the `for (const file of files)` loop of `searchNotes`:
a matching document yields its `{ file, snippet }` record, a non-matching
one yields nothing. -/
def processDoc (keywords : List (List Char)) (d : Doc) : Option Cand :=
  let contentLower := lowerStr d.content
  if keywords.any (fun w => containsSub w contentLower) then
    let firstIdx := computeFirstIdx keywords contentLower
    some ⟨d.name, collapseNewlines (jsSlice d.content (max 0 (firstIdx - 50)) (firstIdx + 150))⟩
  else none

/-- `RAGChatPlugin.searchNotes`: derive the keywords once, then collect the
result record of every matching document, preserving file order. -/
def searchNotes (docs : List Doc) (query : List Char) : List Cand :=
  docs.filterMap (processDoc (keywordsOf query))

/-! ### Context assembly (`approximateTokenCount`, `buildContextWithTokenLimit`,
src/main.ts lines 372-389) -/

/-- `text.trim().split(/\s+/).length`. On the empty (or all-whitespace)
string, JS `"".split(/\s+/)` is `[""]` of length 1; on a non-empty trimmed
string, the fragments are the maximal non-whitespace runs. -/
def approximateTokenCount (text : List Char) : Nat :=
  let t := jsTrim text
  if t.isEmpty then 1 else (runsBy (fun c => !c.isWhitespace) t).length

/-- A ranked snippet record `{ file, snippet, sim }` (the `sim` field is the
JS number produced by `cosineSimilarity`; `none` models `NaN`). -/
structure RankedCand where
  name : List Char
  snippet : List Char
  sim : Option ℝ

/-- The token cost charged for one candidate:
`this.approximateTokenCount(r.snippet) + 20`. -/
def snippetCost (r : RankedCand) : Nat := approximateTokenCount r.snippet + 20

/-- The chunk pushed for an included candidate:
`File: ${r.file.basename}\n${r.snippet}`. -/
def chunkOf (r : RankedCand) : List Char :=
  "File: ".toList ++ r.name ++ '\n' :: r.snippet

/-- The loop of `buildContextWithTokenLimit`: accumulate chunks while the
running total stays within the budget, `break` at the first candidate whose
addition would exceed it. -/
def buildChunksAux (budget : Nat) : Nat → List RankedCand → List (List Char)
  | _, [] => []
  | tokenCount, r :: rest =>
    let st := snippetCost r
    if budget < tokenCount + st then []
    else chunkOf r :: buildChunksAux budget (tokenCount + st) rest

/-- `RAGChatView.buildContextWithTokenLimit` (`budget` is
`this.plugin.settings.maxContextTokens`): the collected chunks joined by a
blank line (`chunks.join("\n\n")`). -/
def buildContextWithTokenLimit (budget : Nat) (ranked : List RankedCand) : List Char :=
  List.intercalate ("\n\n".toList) (buildChunksAux budget 0 ranked)

/-- The number of candidates the greedy loop includes (same recursion as
`buildChunksAux`, counting instead of collecting). -/
def greedyLenAux (budget : Nat) : Nat → List RankedCand → Nat
  | _, [] => 0
  | tokenCount, r :: rest =>
    let st := snippetCost r
    if budget < tokenCount + st then 0
    else greedyLenAux budget (tokenCount + st) rest + 1

/-- Number of candidates included by the greedy context assembly. -/
def greedyLen (budget : Nat) (ranked : List RankedCand) : Nat :=
  greedyLenAux budget 0 ranked

/-- Total approximate token cost of a list of candidates. -/
def contextCost (l : List RankedCand) : Nat := (l.map snippetCost).sum

/-- Witness data: a candidate whose snippet has 10 words, so its approximate
token cost is 30. -/
def rcA : RankedCand := ⟨"A".toList, "w w w w w w w w w w".toList, none⟩

/-- Second witness candidate, also of cost 30. -/
def rcB : RankedCand := ⟨"B".toList, "v v v v v v v v v v".toList, none⟩


/-! ### JSON values and the response decoder (`safeParseOllamaJson`,
src/main.ts lines 229-242).

`JSON.parse`/`JSON.stringify` are platform built-ins; they are modelled here
by an executable parser/renderer pair for the standard JSON grammar
restricted to integer numerals and escape-free strings (floating-point
numerals and string escape sequences do not occur in the claims, and a
float model is out of scope). -/

/-- The characters `{` and `}` that `safeParseOllamaJson` searches for. -/
def openBrace : Char := '\x7b'

/-- Closing brace character. -/
def closeBrace : Char := '\x7d'

/-- A JSON value (numbers restricted to integers, strings escape-free). -/
inductive Json where
  | null
  | bool (b : Bool)
  | num (n : Int)
  | str (s : List Char)
  | arr (items : List Json)
  | obj (fields : List (List Char × Json))

/- Structural size of a JSON value, used to budget parser fuel. -/
mutual
/-- Structural size of a JSON value. -/
def jsonSize : Json → Nat
  | .null => 1
  | .bool _ => 1
  | .num _ => 1
  | .str _ => 1
  | .arr items => 2 + itemsSize items
  | .obj fields => 2 + fieldsSize fields
def itemsSize : List Json → Nat
  | [] => 0
  | x :: t => 1 + jsonSize x + itemsSize t
def fieldsSize : List (List Char × Json) → Nat
  | [] => 0
  | kv :: t => 1 + jsonSize kv.2 + fieldsSize t
end

/-- Decimal rendering of a natural number; the first argument is recursion
fuel (any fuel ≥ the number itself suffices, see `renderNatAux_eq_digits`). -/
def renderNatAux : Nat → Nat → List Char
  | 0, _ => []
  | _, 0 => []
  | fuel + 1, n + 1 => renderNatAux fuel ((n + 1) / 10) ++ [Nat.digitChar ((n + 1) % 10)]

/-- Decimal rendering of a natural number (most significant digit first). -/
def renderNat (n : Nat) : List Char := if n = 0 then ['0'] else renderNatAux n n


/- Canonical serialization (as produced by `JSON.stringify`: no added
whitespace, fields and items joined by commas). -/
mutual
/-- Canonical serialization of a JSON value. -/
def renderJ : Json → List Char
  | .null => "null".toList
  | .bool true => "true".toList
  | .bool false => "false".toList
  | .num n => if n < 0 then '-' :: renderNat n.natAbs else renderNat n.toNat
  | .str s => '"' :: s ++ ['"']
  | .arr items => '[' :: renderItems items ++ [']']
  | .obj fields => openBrace :: renderFields fields ++ [closeBrace]
def renderItems : List Json → List Char
  | [] => []
  | [x] => renderJ x
  | x :: y :: t => renderJ x ++ ',' :: renderItems (y :: t)
def renderFields : List (List Char × Json) → List Char
  | [] => []
  | [kv] => '"' :: kv.1 ++ '"' :: ':' :: renderJ kv.2
  | kv :: kv2 :: t => '"' :: kv.1 ++ '"' :: ':' :: renderJ kv.2 ++ ',' :: renderFields (kv2 :: t)
end

/-- JSON whitespace skipping (space, tab, carriage return, newline). -/
def skipWs (s : List Char) : List Char := s.dropWhile Char.isWhitespace

/-- Characters admitted inside a (escape-free) JSON string literal. -/
def jsonStrChar (c : Char) : Bool := c ≠ '"' && c ≠ '\\' && !(c.toNat < 32)

/-- Numeric value of a big-endian list of decimal digit characters. -/
def parseNatChars (ds : List Char) : Nat :=
  ds.foldl (fun a c => a * 10 + (c.toNat - 48)) 0

/-- Parse a non-empty run of decimal digits at the head of the input. -/
def parseDigits (s : List Char) : Option (Nat × List Char) :=
  let ds := s.takeWhile Char.isDigit
  if ds.isEmpty then none else some (parseNatChars ds, s.dropWhile Char.isDigit)

/-- Parse the remainder of a string literal (after the opening quote). -/
def parseStrRest (s : List Char) : Option (List Char × List Char) :=
  let body := s.takeWhile jsonStrChar
  match s.dropWhile jsonStrChar with
  | '"' :: rest => some (body, rest)
  | _ => none

/- Recursive-descent JSON parser (model of `JSON.parse` on the grammar
fragment described above). The `Nat` argument is recursion fuel; every
recursive call decreases it, and `jsonSize` of the parsed value bounds the
fuel needed (see the round-trip lemmas). -/
mutual
/-- Parse one JSON value. -/
def parseV : Nat → List Char → Option (Json × List Char)
  | 0, _ => none
  | fuel + 1, s =>
    match skipWs s with
    | [] => none
    | c :: t =>
      if c = openBrace then parseObjBody fuel t
      else if c = '[' then parseArrBody fuel t
      else if c = '"' then
        match parseStrRest t with
        | some (body, rest) => some (.str body, rest)
        | none => none
      else if c = 'n' then
        if ("ull".toList).isPrefixOf t then some (.null, t.drop 3) else none
      else if c = 't' then
        if ("rue".toList).isPrefixOf t then some (.bool true, t.drop 3) else none
      else if c = 'f' then
        if ("alse".toList).isPrefixOf t then some (.bool false, t.drop 4) else none
      else if c = '-' then
        match parseDigits t with
        | some (n, rest) => some (.num (-(n : Int)), rest)
        | none => none
      else if c.isDigit then
        match parseDigits (c :: t) with
        | some (n, rest) => some (.num (n : Int), rest)
        | none => none
      else none
def parseArrBody : Nat → List Char → Option (Json × List Char)
  | 0, _ => none
  | fuel + 1, s =>
    match skipWs s with
    | ']' :: rest => some (.arr [], rest)
    | _ =>
      match parseItems fuel s with
      | some (items, rest) => some (.arr items, rest)
      | none => none
def parseItems : Nat → List Char → Option (List Json × List Char)
  | 0, _ => none
  | fuel + 1, s =>
    match parseV fuel s with
    | none => none
    | some (v, rest) =>
      match skipWs rest with
      | ',' :: rest2 =>
        match parseItems fuel rest2 with
        | some (items, rest3) => some (v :: items, rest3)
        | none => none
      | ']' :: rest2 => some ([v], rest2)
      | _ => none
def parseObjBody : Nat → List Char → Option (Json × List Char)
  | 0, _ => none
  | fuel + 1, s =>
    match skipWs s with
    | '\x7d' :: rest => some (.obj [], rest)
    | _ =>
      match parseFields fuel s with
      | some (fields, rest) => some (.obj fields, rest)
      | none => none
def parseFields : Nat → List Char → Option (List (List Char × Json) × List Char)
  | 0, _ => none
  | fuel + 1, s =>
    match skipWs s with
    | '"' :: t =>
      match parseStrRest t with
      | none => none
      | some (key, rest) =>
        match skipWs rest with
        | ':' :: rest2 =>
          match parseV fuel rest2 with
          | none => none
          | some (v, rest3) =>
            match skipWs rest3 with
            | ',' :: rest4 =>
              match parseFields fuel rest4 with
              | some (fields, rest5) => some ((key, v) :: fields, rest5)
              | none => none
            | '\x7d' :: rest4 => some ([(key, v)], rest4)
            | _ => none
        | _ => none
    | _ => none
end

/-- `JSON.parse`: parse one value, allowing trailing whitespace only.
The fuel `2 * s.length + 2` suffices for every value whose serialization
fits in `s` (cf. `jsonSize_le_render`). -/
def parseJson (s : List Char) : Option Json :=
  match parseV (2 * s.length + 2) s with
  | some (v, rest) => if (skipWs rest).isEmpty then some v else none
  | none => none

/-- Well-formedness of a string for escape-free serialization: no quote, no
backslash, no control character. -/
def wfStr (s : List Char) : Prop := ∀ c ∈ s, jsonStrChar c = true

/-- Well-formedness of a JSON value for the serializer/parser round trip:
every string (and every object key) is escape-free. -/
inductive WfJson : Json → Prop where
  | null : WfJson .null
  | bool (b : Bool) : WfJson (.bool b)
  | num (n : Int) : WfJson (.num n)
  | str (s : List Char) : wfStr s → WfJson (.str s)
  | arr (items : List Json) : (∀ x ∈ items, WfJson x) → WfJson (.arr items)
  | obj (fields : List (List Char × Json)) :
      (∀ kv ∈ fields, wfStr kv.1) → (∀ kv ∈ fields, WfJson kv.2) →
      WfJson (.obj fields)

/-- The value is a JSON object (the shape `safeParseOllamaJson` targets). -/
def isObjJson (j : Json) : Prop := ∃ fields, j = Json.obj fields

/-- Sample object used by the decoder counterexample and witness. -/
def jsonA : Json := .obj [("a".toList, .num 1)]

/-- `String.prototype.lastIndexOf` for a single character. -/
def lastIdxOfChar (c : Char) (s : List Char) : Option Nat :=
  (idxOf [c] s.reverse).map (fun k => s.length - 1 - k)

/-- Decoder failure causes: no brace span found / span not parseable.
Both correspond to the malformed-response errors thrown by the source. -/
inductive JsonErr where
  | noObject
  | parseFailed
deriving DecidableEq

/-- `safeParseOllamaJson` (src/main.ts lines 229-242): find the first
opening brace and the last closing brace, fail when either is missing,
otherwise parse the inclusive span between them. -/
def safeParseOllamaJson (raw : List Char) : Except JsonErr Json :=
  match idxOf [openBrace] raw, lastIdxOfChar closeBrace raw with
  | some firstBrace, some lastBrace =>
    match parseJson ((raw.drop firstBrace).take (lastBrace + 1 - firstBrace)) with
    | some v => .ok v
    | none => .error .parseFailed
  | _, _ => .error .noObject

/-! ### Field access and JS truthiness on decoded values -/

/-- JS property access `data[key]` on a decoded JSON value: `none` models
`undefined` (missing key, or access on a primitive). Duplicate keys do not
arise in this development; the first binding is taken. -/
def jget (j : Json) (key : List Char) : Option Json :=
  match j with
  | .obj fields => (fields.find? (fun kv => kv.1 = key)).map Prod.snd
  | _ => none

/-- JS truthiness of a decoded JSON value (`undefined` is handled by the
`Option` layer in `jsOrOpt`/`jsOrJson`). -/
def truthy : Json → Bool
  | .null => false
  | .bool b => b
  | .num n => n ≠ 0
  | .str s => !s.isEmpty
  | .arr _ => true
  | .obj _ => true

/-- JS `x[0]` on a decoded value: first element of an array, first character
of a string, key `"0"` of an object, `undefined` otherwise. -/
def jsIndexZero : Json → Option Json
  | .arr items => items.head?
  | .str s =>
    match s with
    | [] => none
    | c :: _ => some (.str [c])
  | .obj fields => jget (.obj fields) ['0']
  | _ => none

/-- JS `x || y` where `x` may be `undefined` and the result may again be
used as a JS value or `undefined`. -/
def jsOrOpt (x y : Option Json) : Option Json :=
  match x with
  | some v => if truthy v then some v else y
  | none => y

/-- JS `x || y` with a defined fallback `y`. -/
def jsOrJson (x : Option Json) (y : Json) : Json :=
  match x with
  | some v => if truthy v then v else y
  | none => y

/-! ### Embedding and completion clients (`ollamaEmbed`, `ollamaEmbedBatch`,
`ollamaChat`, src/main.ts lines 162-220) -/

/-- Key string "embedding". -/
def keyEmbedding : List Char := "embedding".toList

/-- Key string "embeddings". -/
def keyEmbeddings : List Char := "embeddings".toList

/-- Key string "message". -/
def keyMessage : List Char := "message".toList

/-- Key string "content". -/
def keyContent : List Char := "content".toList

/-- Key string "response". -/
def keyResponse : List Char := "response".toList

/-- Result of one `fetch` round trip: either the transport fails (the
promise rejects, an exception propagates) or a response with an HTTP status
and a raw body text is delivered. -/
inductive FetchResult where
  | failure
  | success (status : Nat) (body : List Char)
deriving DecidableEq

/-- Failure modes a client call can surface. -/
inductive SvcFail where
  | transport
  | badBody (e : JsonErr)
  | notArray
deriving DecidableEq

/-- `data.embeddings?.[0]`: optional chaining returns `undefined` on a
missing or `null` field, otherwise indexes the value. -/
def embedsFirst (data : Json) : Option Json :=
  match jget data keyEmbeddings with
  | none => none
  | some .null => none
  | some v => jsIndexZero v

/-- `data.embedding || data.embeddings?.[0]` from `ollamaEmbed`. -/
def embedExtract (data : Json) : Option Json :=
  jsOrOpt (jget data keyEmbedding) (embedsFirst data)

/-- `ollamaEmbed` (src/main.ts lines 162-174) as a function of the input
text and the `fetch` outcome. The text only shapes the request body; the
HTTP status of a delivered response is never inspected by the source, and a
decoded object lacking both embedding fields yields `ok none` (the JS
function returns `undefined`), not an error. -/
def ollamaEmbed (text : List Char) (r : FetchResult) : Except SvcFail (Option Json) :=
  match text, r with
  | _, .failure => .error .transport
  | _, .success _ body =>
    match safeParseOllamaJson body with
    | .error e => .error (.badBody e)
    | .ok data => .ok (embedExtract data)

/-- `ollamaEmbedBatch` (src/main.ts lines 176-194): after decoding, the
`embeddings` field must be an array (`Array.isArray`), which is then
returned unchecked — in particular its length is never compared with the
input length. -/
def ollamaEmbedBatch (texts : List (List Char)) (r : FetchResult) :
    Except SvcFail (List Json) :=
  match texts, r with
  | _, .failure => .error .transport
  | _, .success _ body =>
    match safeParseOllamaJson body with
    | .error e => .error (.badBody e)
    | .ok data =>
      match jget data keyEmbeddings with
      | some (.arr items) => .ok items
      | _ => .error .notArray

/-- `data.message?.content` from `ollamaChat`. -/
def msgContent (data : Json) : Option Json :=
  match jget data keyMessage with
  | none => none
  | some .null => none
  | some m => jget m keyContent

/-- The placeholder answer of `ollamaChat`. -/
def noResponseStr : List Char := "[no response]".toList

/-- `data.message?.content || data.response || "[no response]"` from
`ollamaChat` (src/main.ts line 219). -/
def chatExtract (data : Json) : Json :=
  jsOrJson (msgContent data) (jsOrJson (jget data keyResponse) (.str noResponseStr))

/-- `ollamaChat` (src/main.ts lines 196-220) as a function of the `fetch`
outcome (context and query only shape the request body). -/
def ollamaChat (context query : List Char) (r : FetchResult) : Except SvcFail Json :=
  match context, query, r with
  | _, _, .failure => .error .transport
  | _, _, .success _ body =>
    match safeParseOllamaJson body with
    | .error e => .error (.badBody e)
    | .ok data => .ok (chatExtract data)

/-! ### Cosine similarity (`cosineSimilarity`, src/main.ts lines 222-227)

JS floating-point numbers are idealised as real numbers; `none` models
`NaN`, which in the source arises exactly from arithmetic on `undefined`
(an out-of-range indexed access). -/

/-- JS addition with NaN propagation. -/
noncomputable def jsAdd : Option ℝ → Option ℝ → Option ℝ
  | some a, some b => some (a + b)
  | _, _ => none

/-- JS multiplication with NaN propagation (`x * undefined` is also NaN). -/
noncomputable def jsMul : Option ℝ → Option ℝ → Option ℝ
  | some a, some b => some (a * b)
  | _, _ => none

/-- `Math.sqrt` with NaN propagation (negative arguments give NaN; only
non-negative arguments occur in this development). -/
noncomputable def jsSqrt : Option ℝ → Option ℝ
  | none => none
  | some a => if a < 0 then none else some (Real.sqrt a)

/-- JS division with NaN propagation. A zero divisor would give an infinity
in JS; that case is unreachable here because the only divisor formed is
`‖a‖ * ‖b‖ + 1e-8 > 0` (see `cosineSimilarity_eq_of_le_length`), so it is
mapped to `none` as well. -/
noncomputable def jsDiv : Option ℝ → Option ℝ → Option ℝ
  | some a, some b => if b = 0 then none else some (a / b)
  | _, _ => none

/-- The stabiliser literal `1e-8` (idealised as the exact rational). -/
noncomputable def jsEps : ℝ := 1 / 100000000

/-- `a.reduce((sum, ai, i) => sum + ai * b[i], 0)`: the dot product summed
over the indices of `a`; `b[i]` is `undefined` (hence the product NaN) when
`i` is out of range for `b`. -/
noncomputable def dotJs (a b : List ℝ) : Option ℝ :=
  a.enum.foldl (fun sum p => jsAdd sum (jsMul (some p.2) (b.get? p.1))) (some 0)

/-- `Math.sqrt(v.reduce((sum, x) => sum + x * x, 0))`. -/
noncomputable def magJs (v : List ℝ) : Option ℝ :=
  jsSqrt (v.foldl (fun sum x => jsAdd sum (jsMul (some x) (some x))) (some 0))

/-- `cosineSimilarity` (src/main.ts lines 222-227):
`dot / (aMag * bMag + 1e-8)`. No dimension check is performed. -/
noncomputable def cosineSimilarity (a b : List ℝ) : Option ℝ :=
  jsDiv (dotJs a b) (jsAdd (jsMul (magJs a) (magJs b)) (some jsEps))

/-- Sum of squares of a vector (the radicand of `aMag`/`bMag`). -/
noncomputable def sumSq (v : List ℝ) : ℝ := (v.map (fun x => x * x)).sum

/-- The mathematical dot product over the common prefix of two vectors. -/
noncomputable def zipDot (a b : List ℝ) : ℝ := (List.zipWith (· * ·) a b).sum

/-! ### Similarity ranking (`handleSubmit`, src/main.ts lines 413-418) -/

/-- The similarity used by the sort comparator; the default for a NaN `sim`
is immaterial because the pipeline only sorts records whose similarity is a
number (equal-dimension embeddings). -/
noncomputable def simVal (r : RankedCand) : ℝ := r.sim.getD 0

/-- `results.map((res, i) => ({...res, sim: cosineSimilarity(queryEmbedding,
snippetEmbeddings[i])}))`, with the index-aligned access presented as a list
of pairs. -/
noncomputable def annotate (queryEmbedding : List ℝ) (pairs : List (Cand × List ℝ)) :
    List RankedCand :=
  pairs.map (fun p => ⟨p.1.name, p.1.snippet, cosineSimilarity queryEmbedding p.2⟩)

/-- `.sort((a, b) => b.sim - a.sim)`: `Array.prototype.sort` is (per the
ECMAScript specification) a stable sort which, for a consistent comparator,
places `x` before `y` whenever `compare(x, y) ≤ 0`; with this comparator
that is `sim y ≤ sim x`. It is modelled by the stable `List.mergeSort`. -/
noncomputable def rankResults (queryEmbedding : List ℝ) (pairs : List (Cand × List ℝ)) :
    List RankedCand :=
  (annotate queryEmbedding pairs).mergeSort (fun x y => decide (simVal y ≤ simVal x))

/-! ### The submission pipeline (`handleSubmit`, src/main.ts lines 391-431) -/

/-- One network request issued by the pipeline. -/
inductive NetCall where
  | embedOne (text : List Char)
  | embedMany (texts : List (List Char))
  | chatCall (context query : List Char)
deriving DecidableEq

/-- The three service round trips, abstracted as functions from request
payload to outcome (the `fetch`-based clients above instantiate them; here
they stand for the network). -/
structure Services where
  embedQ : List Char → Except SvcFail (List ℝ)
  embedB : List (List Char) → Except SvcFail (List (List ℝ))
  chat : List Char → List Char → Except SvcFail (List Char)

/-- Observable outcome of one submission. -/
inductive Outcome where
  | ignored
  | noMatch
  | answered (text : List Char)
  | errored
deriving DecidableEq

/-- `handleSubmit` (src/main.ts lines 391-431), with the network calls it
issues recorded in order. The empty-query and no-result cases return before
any service is contacted; any service failure aborts the rest (the `catch`
branch). `budget` is `settings.maxContextTokens`. The zip models the
index-aligned access `snippetEmbeddings[i]` for the aligned case (the
source silently misaligns or faults when the batch reply length differs
from the request length - see the analysis of `ollamaEmbedBatch`). -/
noncomputable def handleSubmitModel (svc : Services) (budget : Nat) (docs : List Doc)
    (rawInput : List Char) : List NetCall × Outcome :=
  let query := jsTrim rawInput
  if query.isEmpty then ([], .ignored)
  else
    let results := searchNotes docs query
    if results.isEmpty then ([], .noMatch)
    else
      match svc.embedQ query with
      | .error _ => ([.embedOne query], .errored)
      | .ok queryEmbedding =>
        let snippets := results.map Cand.snippet
        match svc.embedB snippets with
        | .error _ => ([.embedOne query, .embedMany snippets], .errored)
        | .ok snippetEmbeddings =>
          let ranked := rankResults queryEmbedding (results.zip snippetEmbeddings)
          let context := buildContextWithTokenLimit budget ranked
          match svc.chat context query with
          | .error _ =>
            ([.embedOne query, .embedMany snippets, .chatCall context query], .errored)
          | .ok answer =>
            ([.embedOne query, .embedMany snippets, .chatCall context query],
              .answered (jsTrim answer))

/-! ### Concrete data used by the witnesses -/

/-- A sample document. -/
def docA : Doc := ⟨"A".toList, "the cat sat".toList⟩

/-- Trivial services (never consulted by the witnesses that use them). -/
def svcNone : Services :=
  ⟨fun _ => .error .transport, fun _ => .error .transport, fun _ _ => .error .transport⟩

/-! ### Defining equations of the single-pass string helpers -/

theorem runsByAux_some (p : Char → Bool) :
    ∀ (l : List Char) (run : List Char),
      runsByAux p l (some run) =
        (run.reverse ++ l.takeWhile p) :: runsByAux p (l.dropWhile p) none := by
  intro l
  induction l with
  | nil => intro run; simp [runsByAux]
  | cons c t ih =>
    intro run
    by_cases h : p c
    · simp [runsByAux, h, List.takeWhile_cons, List.dropWhile_cons, ih]
    · simp [runsByAux, h, List.takeWhile_cons, List.dropWhile_cons]

theorem runsBy_cons (p : Char → Bool) (c : Char) (t : List Char) :
    runsBy p (c :: t) =
      if p c then (c :: t.takeWhile p) :: runsBy p (t.dropWhile p)
      else runsBy p t := by
  by_cases h : p c <;> simp [runsBy, runsByAux, h, runsByAux_some]

theorem runsBy_nil (p : Char → Bool) : runsBy p [] = [] := rfl

theorem collapseNLAux_true (t : List Char) :
    collapseNLAux true t = collapseNLAux false (t.dropWhile (· = '\n')) := by
  induction t with
  | nil => rfl
  | cons c t ih =>
    by_cases h : c = '\n'
    · simp [collapseNLAux, h, List.dropWhile_cons, ih]
    · simp [collapseNLAux, h, List.dropWhile_cons]

theorem collapseNewlines_cons (c : Char) (t : List Char) :
    collapseNewlines (c :: t) =
      if c = '\n' then ' ' :: collapseNewlines (t.dropWhile (· = '\n'))
      else c :: collapseNewlines t := by
  by_cases h : c = '\n' <;>
    simp [collapseNewlines, collapseNLAux, h, collapseNLAux_true]

theorem collapseNLAux_length_le (l : List Char) :
    ∀ (b : Bool), (collapseNLAux b l).length ≤ l.length := by
  induction l with
  | nil => intro b; simp [collapseNLAux]
  | cons c t ih =>
    intro b
    by_cases h : c = '\n'
    · cases b
      · simpa [collapseNLAux, h] using ih true
      · simp only [collapseNLAux, h, if_true]
        exact Nat.le_succ_of_le (ih true)
    · simpa [collapseNLAux, h] using ih false

theorem collapseNewlines_length_le (l : List Char) :
    (collapseNewlines l).length ≤ l.length := collapseNLAux_length_le l false

/-! ### C1: greedy context assembly -/

theorem buildChunksAux_spec (budget : Nat) :
    ∀ (l : List RankedCand) (tok : Nat), tok ≤ budget →
      buildChunksAux budget tok l = (l.take (greedyLenAux budget tok l)).map chunkOf ∧
      greedyLenAux budget tok l ≤ l.length ∧
      tok + contextCost (l.take (greedyLenAux budget tok l)) ≤ budget ∧
      (greedyLenAux budget tok l < l.length →
        budget < tok + contextCost (l.take (greedyLenAux budget tok l + 1))) := by
  intro l
  induction l with
  | nil =>
    intro tok htok
    simp [buildChunksAux, greedyLenAux, contextCost, htok]
  | cons r rest ih =>
    intro tok htok
    by_cases h : budget < tok + snippetCost r
    · refine ⟨?_, ?_, ?_, ?_⟩
      · simp [buildChunksAux, greedyLenAux, h]
      · simp [greedyLenAux, h]
      · simp [greedyLenAux, h, contextCost, htok]
      · intro _
        simpa [greedyLenAux, h, contextCost] using h
    · have h' : tok + snippetCost r ≤ budget := Nat.le_of_not_lt h
      obtain ⟨ha, hb, hc, hd⟩ := ih (tok + snippetCost r) h'
      refine ⟨?_, ?_, ?_, ?_⟩
      · simp [buildChunksAux, greedyLenAux, h, ha]
      · simp only [greedyLenAux, h, if_false, List.length_cons]
        omega
      · simp only [greedyLenAux, h, if_false, List.take_succ_cons, contextCost,
          List.map_cons, List.sum_cons]
        simp only [contextCost] at hc
        omega
      · simp only [greedyLenAux, h, if_false, List.length_cons, List.take_succ_cons,
          contextCost, List.map_cons, List.sum_cons]
        simp only [contextCost] at hd
        intro hlt
        have := hd (by omega)
        omega

/-- C1: for every token budget and ranked candidate sequence, the assembled
context is the blank-line join of the chunks of a greedy prefix (of length
`greedyLen`): each included candidate costs `approximateTokenCount(snippet) + 20`,
the total cost of the included prefix is within the budget, the first
excluded candidate (when one exists) would push the total past the budget,
and an empty ranked sequence or a first candidate whose cost alone exceeds
the budget yields the empty context string. -/
theorem context_assembly_greedy (budget : Nat) (ranked : List RankedCand) :
    buildContextWithTokenLimit budget ranked =
      List.intercalate ("\n\n".toList)
        ((ranked.take (greedyLen budget ranked)).map chunkOf) ∧
    greedyLen budget ranked ≤ ranked.length ∧
    contextCost (ranked.take (greedyLen budget ranked)) ≤ budget ∧
    (greedyLen budget ranked < ranked.length →
      budget < contextCost (ranked.take (greedyLen budget ranked + 1))) ∧
    (ranked = [] → buildContextWithTokenLimit budget ranked = []) ∧
    (∀ r rest, ranked = r :: rest → budget < snippetCost r →
      buildContextWithTokenLimit budget ranked = []) := by
  obtain ⟨ha, hb, hc, hd⟩ := buildChunksAux_spec budget ranked 0 (Nat.zero_le _)
  refine ⟨?_, hb, ?_, ?_, ?_, ?_⟩
  · simp [buildContextWithTokenLimit, greedyLen, ha]
  · simpa using hc
  · intro hlt
    simpa using hd hlt
  · intro hnil
    subst hnil
    rfl
  · intro r rest hcons hbig
    subst hcons
    have hz : buildChunksAux budget 0 (r :: rest) = [] := by
      simp [buildChunksAux, hbig]
    show List.intercalate _ (buildChunksAux budget 0 (r :: rest)) = []
    rw [hz]
    rfl

/-- Witness for C1 at a concrete input: budget 40 and two candidates of cost
30 each; exactly the first is included. -/
theorem context_assembly_greedy_witness :
    greedyLen 40 [rcA, rcB] = 1 ∧
    buildContextWithTokenLimit 40 [rcA, rcB] =
      List.intercalate ("\n\n".toList)
        (([rcA, rcB].take (greedyLen 40 [rcA, rcB])).map chunkOf) ∧
    contextCost ([rcA, rcB].take (greedyLen 40 [rcA, rcB])) ≤ 40 :=
  ⟨rfl, (context_assembly_greedy 40 [rcA, rcB]).1,
    (context_assembly_greedy 40 [rcA, rcB]).2.2.1⟩

/-! ### Properties of `idxOf`, `containsSub` and the `firstIdx` loop -/

theorem idxOf_some_occurs {needle hay : List Char} {n : Nat}
    (h : idxOf needle hay = some n) : needle <+: hay.drop n := by
  induction hay generalizing n with
  | nil =>
    simp only [idxOf] at h
    split at h
    · next hemp =>
      cases h
      simp [List.isEmpty_iff.mp hemp]
    · cases h
  | cons c t ih =>
    simp only [idxOf] at h
    split at h
    · next hpre =>
      cases h
      simpa using List.isPrefixOf_iff_prefix.mp hpre
    · next hpre =>
      obtain ⟨k, hk, hn⟩ := Option.map_eq_some'.mp h
      subst hn
      simpa [List.drop_succ_cons] using ih hk

theorem idxOf_some_min {needle hay : List Char} {n m : Nat}
    (h : idxOf needle hay = some n) (hm : needle <+: hay.drop m) : n ≤ m := by
  induction hay generalizing n m with
  | nil =>
    simp only [idxOf] at h
    split at h
    · cases h; omega
    · cases h
  | cons c t ih =>
    simp only [idxOf] at h
    split at h
    · cases h; omega
    · next hpre =>
      obtain ⟨k, hk, hn⟩ := Option.map_eq_some'.mp h
      subst hn
      match m with
      | 0 =>
        exact absurd (List.isPrefixOf_iff_prefix.mpr (by simpa using hm)) hpre
      | m' + 1 =>
        have := ih hk (by simpa [List.drop_succ_cons] using hm)
        omega

theorem idxOf_none {needle hay : List Char}
    (h : idxOf needle hay = none) (m : Nat) : ¬ needle <+: hay.drop m := by
  induction hay generalizing m with
  | nil =>
    simp only [idxOf] at h
    split at h
    · cases h
    · next hemp =>
      intro hc
      have : needle = [] := List.prefix_nil.mp (by simpa using hc)
      simp [this] at hemp
  | cons c t ih =>
    simp only [idxOf] at h
    split at h
    · cases h
    · next hpre =>
      have ht : idxOf needle t = none := by
        cases hidx : idxOf needle t with
        | none => rfl
        | some k => rw [hidx] at h; cases h
      intro hc
      match m with
      | 0 => exact hpre (List.isPrefixOf_iff_prefix.mpr (by simpa using hc))
      | m' + 1 => exact ih ht m' (by simpa [List.drop_succ_cons] using hc)

theorem containsSub_iff (needle hay : List Char) :
    containsSub needle hay = true ↔ ∃ p s, hay = p ++ needle ++ s := by
  constructor
  · intro h
    obtain ⟨n, hn⟩ := Option.isSome_iff_exists.mp h
    obtain ⟨s, hs⟩ := idxOf_some_occurs hn
    refine ⟨hay.take n, s, ?_⟩
    conv_lhs => rw [← List.take_append_drop n hay]
    rw [List.append_assoc, hs]
  · rintro ⟨p, s, rfl⟩
    cases hidx : idxOf needle (p ++ needle ++ s) with
    | some k =>
      show (idxOf needle (p ++ needle ++ s)).isSome = true
      rw [hidx]
      rfl
    | none =>
      exact absurd (by simp [List.append_assoc, List.drop_left] : needle <+: (p ++ needle ++ s).drop p.length)
        (idxOf_none hidx p.length)

theorem foldFirstIdx_from_nat (hay : List Char) :
    ∀ (ks : List (List Char)) (v : Nat),
      ∃ fi : Nat,
        ks.foldl (firstIdxStep hay) (v : Int) = (fi : Int) ∧
        (fi = v ∨ ∃ k ∈ ks, idxOf k hay = some fi) ∧
        fi ≤ v ∧
        (∀ k ∈ ks, ∀ i, idxOf k hay = some i → fi ≤ i) := by
  intro ks
  induction ks with
  | nil => intro v; exact ⟨v, rfl, Or.inl rfl, le_rfl, by simp⟩
  | cons k ks ih =>
    intro v
    simp only [List.foldl_cons]
    cases hidx : idxOf k hay with
    | none =>
      have hstep : firstIdxStep hay (v : Int) k = (v : Int) := by
        simp [firstIdxStep, hidx]
      rw [hstep]
      obtain ⟨fi, h1, h2, h3, h4⟩ := ih v
      refine ⟨fi, h1, ?_, h3, ?_⟩
      · rcases h2 with rfl | ⟨k', hk', hk'i⟩
        · exact Or.inl rfl
        · exact Or.inr ⟨k', List.mem_cons_of_mem _ hk', hk'i⟩
      · intro k0 hk0 i0 hi0
        rcases List.mem_cons.mp hk0 with rfl | hk0'
        · rw [hidx] at hi0; cases hi0
        · exact h4 k0 hk0' i0 hi0
    | some i =>
      have hstep : firstIdxStep hay (v : Int) k = ((min i v : Nat) : Int) := by
        simp only [firstIdxStep, hidx]
        split
        · next hcond =>
          rcases hcond with hneg | hlt
          · omega
          · have hle : i ≤ v := Nat.le_of_lt (by exact_mod_cast hlt)
            simp [Nat.min_def, hle]
        · next hcond =>
          push_neg at hcond
          have hvi : v ≤ i := by exact_mod_cast hcond.2
          rw [Nat.min_eq_right hvi]
      rw [hstep]
      obtain ⟨fi, h1, h2, h3, h4⟩ := ih (min i v)
      refine ⟨fi, h1, ?_, le_trans h3 (Nat.min_le_right i v), ?_⟩
      · rcases h2 with rfl | ⟨k', hk', hk'i⟩
        · rcases Nat.le_total i v with hle | hle
          · exact Or.inr ⟨k, List.mem_cons_self k ks, by rwa [Nat.min_eq_left hle]⟩
          · exact Or.inl (Nat.min_eq_right hle)
        · exact Or.inr ⟨k', List.mem_cons_of_mem _ hk', hk'i⟩
      · intro k0 hk0 i0 hi0
        rcases List.mem_cons.mp hk0 with rfl | hk0'
        · rw [hidx] at hi0
          cases hi0
          exact le_trans h3 (Nat.min_le_left i v)
        · exact h4 k0 hk0' i0 hi0

theorem computeFirstIdx_spec (ks : List (List Char)) (hay : List Char) :
    (computeFirstIdx ks hay = -1 ∧ ∀ k ∈ ks, idxOf k hay = none) ∨
    (∃ fi : Nat, computeFirstIdx ks hay = (fi : Int) ∧
      (∃ k ∈ ks, idxOf k hay = some fi) ∧
      (∀ k ∈ ks, ∀ i, idxOf k hay = some i → fi ≤ i)) := by
  unfold computeFirstIdx
  induction ks with
  | nil => exact Or.inl ⟨rfl, by simp⟩
  | cons k ks ih =>
    simp only [List.foldl_cons]
    cases hidx : idxOf k hay with
    | none =>
      have hstep : firstIdxStep hay (-1) k = -1 := by simp [firstIdxStep, hidx]
      rw [hstep]
      rcases ih with ⟨h1, h2⟩ | ⟨fi, h1, ⟨k', hk', hk'i⟩, h3⟩
      · refine Or.inl ⟨h1, ?_⟩
        intro k0 hk0
        rcases List.mem_cons.mp hk0 with rfl | hk0'
        · exact hidx
        · exact h2 k0 hk0'
      · refine Or.inr ⟨fi, h1, ⟨k', List.mem_cons_of_mem _ hk', hk'i⟩, ?_⟩
        intro k0 hk0 i0 hi0
        rcases List.mem_cons.mp hk0 with rfl | hk0'
        · rw [hidx] at hi0; cases hi0
        · exact h3 k0 hk0' i0 hi0
    | some i =>
      have hstep : firstIdxStep hay (-1) k = (i : Int) := by simp [firstIdxStep, hidx]
      rw [hstep]
      obtain ⟨fi, h1, h2, h3, h4⟩ := foldFirstIdx_from_nat hay ks i
      right
      refine ⟨fi, h1, ?_, ?_⟩
      · rcases h2 with rfl | ⟨k', hk', hk'i⟩
        · exact ⟨k, List.mem_cons_self k ks, hidx⟩
        · exact ⟨k', List.mem_cons_of_mem _ hk', hk'i⟩
      · intro k0 hk0 i0 hi0
        rcases List.mem_cons.mp hk0 with rfl | hk0'
        · rw [hidx] at hi0
          cases hi0
          exact h3
        · exact h4 k0 hk0' i0 hi0

/-! ### C3: lexical filter membership and snippet window -/

/-- C3: for every document and non-empty keyword list, the document is kept
by the lexical filter iff some keyword occurs as a substring of its
lower-cased content; the snippet of a kept document is the slice of the
content from `max(0, fi - 50)` to `fi + 150` (clipped at the document
bounds by `take`/`drop`) with every newline run collapsed to one space,
where `fi` is the least index at which any keyword occurs in the
lower-cased content; hence the window start `fi - 50` (truncated
subtraction, i.e. `max(0, fi-50)`) is at most `fi` and the snippet length
is at most 200. -/
theorem lexical_filter_spec (K : List (List Char)) (d : Doc) (hK : K ≠ []) :
    ((processDoc K d).isSome = true ↔
      ∃ k ∈ K, ∃ p s, lowerStr d.content = p ++ k ++ s) ∧
    (∀ c, processDoc K d = some c →
      c.name = d.name ∧
      ∃ fi : Nat,
        (∃ k ∈ K, k <+: (lowerStr d.content).drop fi) ∧
        (∀ m < fi, ¬ ∃ k ∈ K, k <+: (lowerStr d.content).drop m) ∧
        c.snippet =
          collapseNewlines ((d.content.drop (fi - 50)).take (fi + 150 - (fi - 50))) ∧
        fi - 50 ≤ fi ∧
        c.snippet.length ≤ 200) := by
  constructor
  · by_cases hg : K.any (fun w => containsSub w (lowerStr d.content)) = true
    · have hsome : (processDoc K d).isSome = true := by
        simp only [processDoc, hg, if_true, Option.isSome_some]
      rw [hsome]
      simp only [true_iff]
      obtain ⟨k, hkK, hkc⟩ := List.any_eq_true.mp hg
      exact ⟨k, hkK, (containsSub_iff _ _).mp hkc⟩
    · have hnone : processDoc K d = none := by
        simp only [processDoc]
        rw [if_neg hg]
      rw [hnone]
      simp only [Option.isSome_none, Bool.false_eq_true, false_iff]
      rintro ⟨k, hkK, p, s, hps⟩
      exact hg (List.any_eq_true.mpr ⟨k, hkK, (containsSub_iff _ _).mpr ⟨p, s, hps⟩⟩)
  · intro c hc
    by_cases hg : K.any (fun w => containsSub w (lowerStr d.content)) = true
    swap
    · exfalso
      have : processDoc K d = none := by
        simp only [processDoc]
        rw [if_neg hg]
      rw [this] at hc
      cases hc
    obtain ⟨k, hkK, hkc⟩ := List.any_eq_true.mp hg
    obtain ⟨n, hn⟩ := Option.isSome_iff_exists.mp hkc
    rcases computeFirstIdx_spec K (lowerStr d.content) with ⟨_, hall⟩ | ⟨fi, hfi, ⟨k1, hk1, hk1i⟩, hmin⟩
    · rw [hall k hkK] at hn
      cases hn
    have hcval : c = ⟨d.name,
        collapseNewlines (jsSlice d.content
          (max 0 (computeFirstIdx K (lowerStr d.content) - 50))
          (computeFirstIdx K (lowerStr d.content) + 150))⟩ := by
      simp only [processDoc, hg, if_true] at hc
      exact (Option.some.injEq _ _).mp hc |>.symm
    have hslice : jsSlice d.content
        (max 0 (computeFirstIdx K (lowerStr d.content) - 50))
        (computeFirstIdx K (lowerStr d.content) + 150) =
        (d.content.drop (fi - 50)).take (fi + 150 - (fi - 50)) := by
      rw [hfi]
      unfold jsSlice
      have h1 : (max 0 ((fi : Int) - 50)).toNat = fi - 50 := by omega
      have h2 : (((fi : Int)) + 150).toNat = fi + 150 := by omega
      rw [h1, h2]
    refine ⟨by rw [hcval], fi, ?_, ?_, ?_, ?_, ?_⟩
    · exact ⟨k1, hk1, idxOf_some_occurs hk1i⟩
    · rintro m hm ⟨k2, hk2K, hk2pre⟩
      cases hidx2 : idxOf k2 (lowerStr d.content) with
      | none => exact idxOf_none hidx2 m hk2pre
      | some j =>
        have hjm : j ≤ m := idxOf_some_min hidx2 hk2pre
        have hfj : fi ≤ j := hmin k2 hk2K j hidx2
        omega
    · rw [hcval]
      simp only [hslice]
    · omega
    · rw [hcval]
      simp only [hslice]
      refine le_trans (collapseNewlines_length_le _) ?_
      have htk := List.length_take_le (fi + 150 - (fi - 50)) (List.drop (fi - 50) d.content)
      omega

/-- Witness for C3 at a concrete input: the single keyword `cat` against the
document body `the cat sat`. -/
theorem lexical_filter_spec_witness :
    (["cat".toList] : List (List Char)) ≠ [] ∧
    (processDoc ["cat".toList] docA).isSome = true :=
  ⟨by decide,
    (lexical_filter_spec ["cat".toList] docA (by decide)).1.mpr
      ⟨"cat".toList, by decide, "the ".toList, " sat".toList, by decide⟩⟩

/-! ### C2: empty keyword set short-circuits the pipeline -/

theorem runsBy_cons_neg {p : Char → Bool} {c : Char} (hc : p c = false) (t : List Char) :
    runsBy p (c :: t) = runsBy p t := by
  rw [runsBy_cons, if_neg (by simp [hc])]

theorem runsBy_append_neg {p : Char → Bool} {c : Char} (hc : p c = false) :
    ∀ (n : Nat) (l : List Char), l.length ≤ n → runsBy p (l ++ [c]) = runsBy p l := by
  intro n
  induction n with
  | zero =>
    intro l hl
    have : l = [] := by
      cases l with
      | nil => rfl
      | cons x t => simp at hl
    subst this
    simp only [List.nil_append]
    rw [runsBy_cons_neg hc, runsBy_nil]
  | succ n ih =>
    intro l hl
    match l with
    | [] =>
      simp only [List.nil_append]
      rw [runsBy_cons_neg hc, runsBy_nil]
    | x :: l' =>
      by_cases hx : p x = true
      · rw [List.cons_append, runsBy_cons, runsBy_cons, if_pos hx, if_pos hx]
        by_cases hall : ∀ y ∈ l', p y = true
        · have htk : l'.takeWhile p = l' :=
            List.takeWhile_eq_self_iff.mpr hall
          have hdw : l'.dropWhile p = [] :=
            List.dropWhile_eq_nil_iff.mpr hall
          have htk2 : (l' ++ [c]).takeWhile p = l' := by
            rw [List.takeWhile_append]
            rw [if_pos (by rw [htk])]
            simp [List.takeWhile_cons, hc]
          have hdw2 : (l' ++ [c]).dropWhile p = [c] := by
            rw [List.dropWhile_append]
            rw [if_pos (by rw [hdw]; rfl)]
            simp [List.dropWhile_cons, hc]
          rw [htk, hdw, htk2, hdw2]
          rw [runsBy_cons_neg hc, runsBy_nil]
        · have htk2 : (l' ++ [c]).takeWhile p = l'.takeWhile p := by
            rw [List.takeWhile_append]
            rw [if_neg]
            intro hlen
            exact hall (List.takeWhile_eq_self_iff.mp
              ((List.takeWhile_prefix p).sublist.eq_of_length hlen))
          have hdw2 : (l' ++ [c]).dropWhile p = l'.dropWhile p ++ [c] := by
            rw [List.dropWhile_append]
            rw [if_neg]
            intro hemp
            exact hall (List.dropWhile_eq_nil_iff.mp (by simpa using hemp))
          rw [htk2, hdw2]
          have hlen2 : (l'.dropWhile p).length ≤ n := by
            have := (List.dropWhile_sublist (l := l') p).length_le
            simp only [List.length_cons] at hl
            omega
          rw [ih _ hlen2]
      · have hx' : p x = false := by simpa using hx
        rw [List.cons_append, runsBy_cons_neg hx', runsBy_cons_neg hx']
        have : l'.length ≤ n := by
          simp only [List.length_cons] at hl
          omega
        exact ih l' this

theorem runsBy_map_dropWhile {p q : Char → Bool} {f : Char → Char}
    (hqf : ∀ c, q c = true → p (f c) = false) :
    ∀ l : List Char, runsBy p ((l.dropWhile q).map f) = runsBy p (l.map f) := by
  intro l
  induction l with
  | nil => rfl
  | cons c t ih =>
    by_cases hq : q c = true
    · rw [List.dropWhile_cons, if_pos hq, List.map_cons, runsBy_cons_neg (hqf c hq)]
      exact ih
    · rw [List.dropWhile_cons, if_neg hq]

theorem runsBy_map_dropTrailing {p q : Char → Bool} {f : Char → Char}
    (hqf : ∀ c, q c = true → p (f c) = false) :
    ∀ (n : Nat) (l : List Char), l.length ≤ n →
      runsBy p (((l.reverse.dropWhile q).reverse).map f) = runsBy p (l.map f) := by
  intro n
  induction n with
  | zero =>
    intro l hl
    have : l = [] := by
      cases l with
      | nil => rfl
      | cons x t => simp at hl
    subst this
    rfl
  | succ n ih =>
    intro l hl
    rcases List.eq_nil_or_concat l with rfl | ⟨L, b, rfl⟩
    · rfl
    · rw [List.concat_eq_append, List.reverse_append, List.reverse_singleton,
        List.singleton_append]
      by_cases hq : q b = true
      · rw [List.dropWhile_cons, if_pos hq]
        have h1 : runsBy p (((L.reverse.dropWhile q).reverse).map f) = runsBy p (L.map f) := by
          refine ih L ?_
          have hl2 := hl
          simp only [List.concat_eq_append, List.length_append,
            List.length_singleton] at hl2
          omega
        rw [h1, List.map_append, List.map_singleton]
        exact (runsBy_append_neg (hqf b hq) (L.map f).length (L.map f) le_rfl).symm
      · rw [List.dropWhile_cons, if_neg hq, List.reverse_cons, List.reverse_reverse]

theorem ws_not_word_toLower (c : Char) (h : Char.isWhitespace c = true) :
    jsWordChar (Char.toLower c) = false := by
  have hcases : ((c = ' ' ∨ c = '\t') ∨ c = '\x0d') ∨ c = '\n' := by
    simpa [Char.isWhitespace, decide_eq_true_eq] using h
  rcases hcases with ((rfl | rfl) | rfl) | rfl <;> decide

theorem keywordsOf_jsTrim (q : List Char) : keywordsOf (jsTrim q) = keywordsOf q := by
  unfold keywordsOf lowerStr jsTrim
  rw [runsBy_map_dropTrailing ws_not_word_toLower (q.dropWhile Char.isWhitespace).length _
    le_rfl]
  rw [runsBy_map_dropWhile ws_not_word_toLower]

theorem processDoc_nil_keywords (d : Doc) : processDoc [] d = none := rfl

theorem searchNotes_eq_nil_of_keywords {q : List Char} (h : keywordsOf q = [])
    (docs : List Doc) : searchNotes docs q = [] := by
  unfold searchNotes
  rw [h]
  exact List.filterMap_eq_nil_iff.mpr (fun d _ => processDoc_nil_keywords d)

/-- C2: a query whose lower-cased text, split on non-word-character runs and
stripped of stop words, yields no keywords produces no lexical candidates,
and the submission pipeline then returns before issuing any network call
(the recorded call trace is empty). -/
theorem empty_keywords_no_network (svc : Services) (budget : Nat)
    (docs : List Doc) (query : List Char) (h : keywordsOf query = []) :
    searchNotes docs query = [] ∧
    (handleSubmitModel svc budget docs query).1 = [] := by
  refine ⟨searchNotes_eq_nil_of_keywords h docs, ?_⟩
  have htrim : keywordsOf (jsTrim query) = [] := by
    rw [keywordsOf_jsTrim]; exact h
  have hq2 : searchNotes docs (jsTrim query) = [] :=
    searchNotes_eq_nil_of_keywords htrim docs
  unfold handleSubmitModel
  by_cases he : (jsTrim query).isEmpty = true
  · simp [he]
  · simp [he, hq2]

/-- Witness for C2 at a concrete input: the all-stop-word query
`what is the` against a one-document corpus; no candidates, no calls. -/
theorem empty_keywords_no_network_witness :
    keywordsOf ("what is the".toList) = [] ∧
    searchNotes [docA] ("what is the".toList) = [] ∧
    (handleSubmitModel svcNone 700 [docA] ("what is the".toList)).1 = [] :=
  ⟨by decide,
    (empty_keywords_no_network svcNone 700 [docA] ("what is the".toList) (by decide)).1,
    (empty_keywords_no_network svcNone 700 [docA] ("what is the".toList) (by decide)).2⟩

/-! ### C7 and C8: cosine similarity -/

theorem sumSq_nonneg (v : List ℝ) : 0 ≤ sumSq v :=
  List.sum_nonneg (by
    intro x hx
    obtain ⟨y, _, rfl⟩ := List.mem_map.mp hx
    exact mul_self_nonneg y)

theorem foldl_sq_some (v : List ℝ) :
    ∀ acc : ℝ,
      v.foldl (fun sum x => jsAdd sum (jsMul (some x) (some x))) (some acc) =
      some (acc + sumSq v) := by
  induction v with
  | nil => intro acc; simp [sumSq]
  | cons x t ih =>
    intro acc
    simp only [List.foldl_cons]
    have hstep : jsAdd (some acc) (jsMul (some x) (some x)) = some (acc + x * x) := rfl
    rw [hstep, ih (acc + x * x)]
    have hs : sumSq (x :: t) = x * x + sumSq t := by simp [sumSq]
    rw [hs]
    congr 1
    ring

theorem magJs_eq (v : List ℝ) : magJs v = some (Real.sqrt (sumSq v)) := by
  unfold magJs
  rw [foldl_sq_some v 0, zero_add]
  have hsq : jsSqrt (some (sumSq v)) =
      if sumSq v < 0 then none else some (Real.sqrt (sumSq v)) := rfl
  rw [hsq, if_neg (not_lt.mpr (sumSq_nonneg v))]

theorem dot_fold_in_range (b : List ℝ) :
    ∀ (a : List ℝ) (i : Nat) (acc : ℝ), i + a.length ≤ b.length →
      (List.enumFrom i a).foldl
          (fun sum p => jsAdd sum (jsMul (some p.2) (b.get? p.1))) (some acc) =
      some (acc + zipDot a (b.drop i)) := by
  intro a
  induction a with
  | nil => intro i acc _; simp [zipDot]
  | cons x t ih =>
    intro i acc hlen
    have hib : i < b.length := by simp only [List.length_cons] at hlen; omega
    simp only [List.enumFrom, List.foldl_cons]
    rw [List.get?_eq_getElem?, List.getElem?_eq_getElem hib]
    have hstep : jsAdd (some acc) (jsMul (some x) (some b[i])) = some (acc + x * b[i]) := rfl
    rw [hstep, ih (i + 1) (acc + x * b[i]) (by simp only [List.length_cons] at hlen; omega)]
    rw [List.drop_eq_getElem_cons hib]
    have hzc : zipDot (x :: t) (b[i] :: b.drop (i + 1)) =
        x * b[i] + zipDot t (b.drop (i + 1)) := by
      simp only [zipDot, List.zipWith_cons_cons, List.sum_cons]
    rw [hzc]
    congr 1
    ring

theorem dotJs_eq_of_le {a b : List ℝ} (h : a.length ≤ b.length) :
    dotJs a b = some (zipDot a b) := by
  unfold dotJs
  have he : a.enum = List.enumFrom 0 a := rfl
  rw [he, dot_fold_in_range b a 0 0 (by omega)]
  simp

theorem dot_fold_none_absorb (b : List ℝ) (a : List ℝ) :
    ∀ i : Nat,
      (List.enumFrom i a).foldl
          (fun sum p => jsAdd sum (jsMul (some p.2) (b.get? p.1))) none = none := by
  induction a with
  | nil => intro i; rfl
  | cons x t ih =>
    intro i
    simp only [List.enumFrom, List.foldl_cons]
    have hnone : jsAdd none (jsMul (some x) (b.get? i)) = none := rfl
    rw [hnone]
    exact ih (i + 1)

theorem dot_fold_none_of_overrun (b : List ℝ) :
    ∀ (a : List ℝ) (i : Nat) (acc : ℝ), a ≠ [] → b.length < i + a.length →
      (List.enumFrom i a).foldl
          (fun sum p => jsAdd sum (jsMul (some p.2) (b.get? p.1))) (some acc) = none := by
  intro a
  induction a with
  | nil => intro i acc hne _; exact absurd rfl hne
  | cons x t ih =>
    intro i acc _ hlen
    simp only [List.enumFrom, List.foldl_cons]
    by_cases hib : i < b.length
    · have hne : t ≠ [] := by
        intro h0
        subst h0
        simp only [List.length_cons, List.length_nil] at hlen
        omega
      rw [List.get?_eq_getElem?, List.getElem?_eq_getElem hib]
      have hstep : jsAdd (some acc) (jsMul (some x) (some b[i])) =
          some (acc + x * b[i]) := rfl
      rw [hstep]
      exact ih (i + 1) _ hne (by simp only [List.length_cons] at hlen ⊢; omega)
    · rw [List.get?_eq_getElem?, List.getElem?_eq_none (by omega)]
      have hnone : jsAdd (some acc) (jsMul (some x) none) = none := rfl
      rw [hnone]
      exact dot_fold_none_absorb b t (i + 1)

theorem dotJs_none_of_lt {a b : List ℝ} (h : b.length < a.length) : dotJs a b = none := by
  unfold dotJs
  have he : a.enum = List.enumFrom 0 a := rfl
  rw [he]
  refine dot_fold_none_of_overrun b a 0 0 ?_ (by omega)
  intro h0
  subst h0
  simp at h

theorem cosineSimilarity_eq_of_le {a b : List ℝ} (h : a.length ≤ b.length) :
    cosineSimilarity a b =
      some (zipDot a b / (Real.sqrt (sumSq a) * Real.sqrt (sumSq b) + jsEps)) := by
  have hden : Real.sqrt (sumSq a) * Real.sqrt (sumSq b) + jsEps ≠ 0 := by
    have h1 : 0 ≤ Real.sqrt (sumSq a) * Real.sqrt (sumSq b) :=
      mul_nonneg (Real.sqrt_nonneg _) (Real.sqrt_nonneg _)
    have h2 : (0 : ℝ) < jsEps := by norm_num [jsEps]
    intro h0
    linarith
  unfold cosineSimilarity
  rw [dotJs_eq_of_le h, magJs_eq, magJs_eq]
  simp only [jsMul, jsAdd, jsDiv]
  rw [if_neg hden]

/-- C7 (amended): `cosineSimilarity` performs no dimension check. When the
first vector is longer, the out-of-range access `b[i]` is `undefined` and
NaN propagates through the sum, so the result is NaN; when the first vector
is no longer than the second, a (numeric) score is returned, computed from
`a`-indexed products only — no exception is raised in either case. -/
theorem cosine_mismatch_behavior (a b : List ℝ) :
    (b.length < a.length → cosineSimilarity a b = none) ∧
    (a.length ≤ b.length → ∃ x : ℝ, cosineSimilarity a b = some x) := by
  constructor
  · intro h
    unfold cosineSimilarity
    rw [dotJs_none_of_lt h]
    rfl
  · intro h
    exact ⟨_, cosineSimilarity_eq_of_le h⟩

/-- C7 counterexample: at the explicit unequal-length input `a = [1]`,
`b = [1, 2]` the computation returns a numeric similarity score (and at the
swapped input it returns NaN) — it never fails fast as the claim states. -/
theorem cosine_mismatch_counterexample :
    ([(1 : ℝ)] : List ℝ).length ≠ ([(1 : ℝ), 2] : List ℝ).length ∧
    cosineSimilarity [(1 : ℝ)] [(1 : ℝ), 2] =
      some (1 / (Real.sqrt 5 + jsEps)) ∧
    cosineSimilarity [(1 : ℝ), 2] [(1 : ℝ)] = none := by
  refine ⟨by simp, ?_, ?_⟩
  · rw [cosineSimilarity_eq_of_le (by simp)]
    have h1 : zipDot [(1 : ℝ)] [(1 : ℝ), 2] = 1 := by
      simp [zipDot]
    have h2 : sumSq [(1 : ℝ)] = 1 := by norm_num [sumSq]
    have h3 : sumSq [(1 : ℝ), 2] = 5 := by norm_num [sumSq]
    rw [h1, h2, h3, Real.sqrt_one, one_mul]
  · exact (cosine_mismatch_behavior [(1 : ℝ), 2] [(1 : ℝ)]).1 (by simp)

/-- Witness for the amended C7 statement at concrete inputs. -/
theorem cosine_mismatch_behavior_witness :
    cosineSimilarity [(1 : ℝ), 2] [(1 : ℝ)] = none ∧
    ∃ x : ℝ, cosineSimilarity [(1 : ℝ)] [(1 : ℝ), 2] = some x :=
  ⟨(cosine_mismatch_behavior [(1 : ℝ), 2] [(1 : ℝ)]).1 (by simp),
    (cosine_mismatch_behavior [(1 : ℝ)] [(1 : ℝ), 2]).2 (by simp)⟩

theorem sumSq_pos_of_ne_zero {a : List ℝ} (h : ∃ x ∈ a, x ≠ 0) : 0 < sumSq a := by
  obtain ⟨x, hxa, hx⟩ := h
  have hmem : x * x ∈ a.map (fun y => y * y) := List.mem_map_of_mem _ hxa
  have hxx : 0 < x * x := mul_self_pos.mpr hx
  have hle : x * x ≤ sumSq a :=
    List.single_le_sum
      (by
        intro y hy
        obtain ⟨z, _, rfl⟩ := List.mem_map.mp hy
        exact mul_self_nonneg z)
      _ hmem
  exact lt_of_lt_of_le hxx hle

theorem zipDot_self (a : List ℝ) : zipDot a a = sumSq a := by
  unfold zipDot sumSq
  rw [List.zipWith_same]

/-- C8: the similarity is `dot / (‖a‖ * ‖b‖ + 1e-8)` and hence symmetric for
equal-length vectors; for a non-zero vector `a` with squared norm
`S = sumSq a`, the self-similarity is exactly `S / (S + ε)`, which is below
`1` and within `ε / S` of `1` — the precise form of `sim(a,a) ≈ 1` once the
`ε` stabiliser term is accounted for. -/
theorem cosine_symm_self :
    (∀ a b : List ℝ, a.length = b.length →
      cosineSimilarity a b = cosineSimilarity b a) ∧
    (∀ a : List ℝ, (∃ x ∈ a, x ≠ 0) →
      cosineSimilarity a a = some (sumSq a / (sumSq a + jsEps)) ∧
      sumSq a / (sumSq a + jsEps) < 1 ∧
      |sumSq a / (sumSq a + jsEps) - 1| ≤ jsEps / sumSq a) := by
  have heps : (0 : ℝ) < jsEps := by norm_num [jsEps]
  constructor
  · intro a b hlen
    rw [cosineSimilarity_eq_of_le (le_of_eq hlen),
      cosineSimilarity_eq_of_le (le_of_eq hlen.symm)]
    have hz : zipDot a b = zipDot b a := by
      unfold zipDot
      rw [List.zipWith_comm_of_comm _ mul_comm]
    rw [hz, mul_comm (Real.sqrt (sumSq a)) (Real.sqrt (sumSq b))]
  · intro a hne
    have hS : 0 < sumSq a := sumSq_pos_of_ne_zero hne
    have h1 : cosineSimilarity a a = some (sumSq a / (sumSq a + jsEps)) := by
      rw [cosineSimilarity_eq_of_le (le_refl a.length), zipDot_self,
        Real.mul_self_sqrt (sumSq_nonneg a)]
    refine ⟨h1, ?_, ?_⟩
    · rw [div_lt_one (by linarith)]
      linarith
    · have heq : sumSq a / (sumSq a + jsEps) - 1 = -(jsEps / (sumSq a + jsEps)) := by
        field_simp
      rw [heq, abs_neg, abs_of_nonneg (div_nonneg (le_of_lt heps) (by linarith))]
      gcongr
      linarith

/-- Witness for C8 at concrete inputs: symmetry at `[1,2]`, `[3,4]` and the
self-similarity of the non-zero vector `[1]`. -/
theorem cosine_symm_self_witness :
    cosineSimilarity [(1 : ℝ), 2] [(3 : ℝ), 4] =
      cosineSimilarity [(3 : ℝ), 4] [(1 : ℝ), 2] ∧
    cosineSimilarity [(1 : ℝ)] [(1 : ℝ)] =
      some (sumSq [(1 : ℝ)] / (sumSq [(1 : ℝ)] + jsEps)) :=
  ⟨cosine_symm_self.1 [(1 : ℝ), 2] [(3 : ℝ), 4] rfl,
    (cosine_symm_self.2 [(1 : ℝ)] ⟨1, by simp, one_ne_zero⟩).1⟩

/-! ### C4: the similarity ranking is a stable descending sort -/

/-- C4: the ranker output is a permutation of the similarity-annotated
input; it is ordered by non-increasing similarity; it is stable — for every
similarity value, the subsequence of entries carrying that value equals the
corresponding subsequence of the input, so equal-similarity entries keep
their original relative order; and when every candidate embedding has the
dimension of the query embedding, every attached similarity is a number
(never NaN), so `simVal` is the genuine similarity score. -/
theorem ranker_spec (q : List ℝ) (pairs : List (Cand × List ℝ)) :
    (rankResults q pairs).Perm (annotate q pairs) ∧
    (rankResults q pairs).Pairwise (fun x y => simVal y ≤ simVal x) ∧
    (∀ s : ℝ, (rankResults q pairs).filter (fun r => decide (simVal r = s)) =
      (annotate q pairs).filter (fun r => decide (simVal r = s))) ∧
    ((∀ pr ∈ pairs, (pr.2 : List ℝ).length = q.length) →
      ∀ r ∈ rankResults q pairs, ∃ x : ℝ, r.sim = some x) := by
  have htrans : ∀ a b c : RankedCand,
      decide (simVal b ≤ simVal a) = true →
      decide (simVal c ≤ simVal b) = true →
      decide (simVal c ≤ simVal a) = true := by
    intro a b c hab hbc
    simp only [decide_eq_true_eq] at hab hbc ⊢
    exact le_trans hbc hab
  have htotal : ∀ a b : RankedCand,
      (decide (simVal b ≤ simVal a) || decide (simVal a ≤ simVal b)) = true := by
    intro a b
    simp only [Bool.or_eq_true, decide_eq_true_eq]
    exact le_total (simVal b) (simVal a)
  refine ⟨?_, ?_, ?_, ?_⟩
  · exact List.mergeSort_perm _ _
  · have hs := List.sorted_mergeSort htrans htotal (annotate q pairs)
    exact hs.imp (fun h => by simpa [decide_eq_true_eq] using h)
  · intro s
    have hmemA : ∀ r ∈ (annotate q pairs).filter (fun r => decide (simVal r = s)),
        simVal r = s := by
      intro r hr
      simpa using List.of_mem_filter hr
    have hpw : ((annotate q pairs).filter (fun r => decide (simVal r = s))).Pairwise
        (fun x y => decide (simVal y ≤ simVal x) = true) := by
      refine List.pairwise_of_forall_mem_list ?_
      intro a ha b hb
      simp only [decide_eq_true_eq]
      rw [hmemA a ha, hmemA b hb]
    have hsub : ((annotate q pairs).filter (fun r => decide (simVal r = s))).Sublist
        (rankResults q pairs) :=
      List.sublist_mergeSort htrans htotal hpw (List.filter_sublist _)
    have hAA : ((annotate q pairs).filter (fun r => decide (simVal r = s))).filter
          (fun r => decide (simVal r = s)) =
        (annotate q pairs).filter (fun r => decide (simVal r = s)) := by
      rw [List.filter_filter]
      congr 1
      funext r
      cases hpr : decide (simVal r = s) <;> simp [hpr]
    have hsub2 : ((annotate q pairs).filter (fun r => decide (simVal r = s))).Sublist
        ((rankResults q pairs).filter (fun r => decide (simVal r = s))) := by
      rw [← hAA]
      exact List.Sublist.filter _ hsub
    have hperm : ((rankResults q pairs).filter (fun r => decide (simVal r = s))).Perm
        ((annotate q pairs).filter (fun r => decide (simVal r = s))) :=
      (List.mergeSort_perm _ _).filter _
    exact (hsub2.eq_of_length hperm.length_eq.symm).symm
  · intro hdim r hr
    have hrA : r ∈ annotate q pairs :=
      ((List.mergeSort_perm (annotate q pairs) _).mem_iff).mp hr
    obtain ⟨pr, hpr, rfl⟩ := List.mem_map.mp hrA
    have hlen : q.length ≤ pr.2.length := le_of_eq (hdim pr hpr).symm
    exact ⟨_, cosineSimilarity_eq_of_le hlen⟩

/-- Witness data for the ranker: two candidate-embedding pairs. -/
def pairsW : List (Cand × List ℝ) :=
  [(⟨"A".toList, "sa".toList⟩, [(2 : ℝ)]), (⟨"B".toList, "sb".toList⟩, [(3 : ℝ)])]

/-- Witness for C4 at a concrete input: a one-dimensional query embedding
against two candidate pairs of matching dimension. -/
theorem ranker_spec_witness :
    (rankResults [(1 : ℝ)] pairsW).Perm (annotate [(1 : ℝ)] pairsW) ∧
    (∀ r ∈ rankResults [(1 : ℝ)] pairsW, ∃ x : ℝ, r.sim = some x) :=
  ⟨(ranker_spec [(1 : ℝ)] pairsW).1,
    (ranker_spec [(1 : ℝ)] pairsW).2.2.2 (by
      intro pr hpr
      simp only [pairsW, List.mem_cons, List.not_mem_nil, or_false] at hpr
      rcases hpr with rfl | rfl <;> rfl)⟩

/-! ### C10: completion-client truthiness -/

theorem jsOrJson_some (v y : Json) :
    jsOrJson (some v) y = if truthy v = true then v else y := rfl

theorem jsOrJson_none (y : Json) : jsOrJson none y = y := rfl

theorem jsOrOpt_none (y : Option Json) : jsOrOpt none y = y := rfl

theorem embedsFirst_eq (data : Json) :
    embedsFirst data =
      match jget data keyEmbeddings with
      | none => none
      | some .null => none
      | some v => jsIndexZero v := rfl

theorem ollamaEmbed_success (text : List Char) (status : Nat) (body : List Char) :
    ollamaEmbed text (.success status body) =
      match safeParseOllamaJson body with
      | .error e => .error (.badBody e)
      | .ok data => .ok (embedExtract data) := rfl

/-- C10: when the decoded completion response has a `message.content` field
that exists but equals the empty string, its presence is decided by JS
truthiness, so the empty string is never returned: the client falls through
to the `response` field, returning its value when that is a non-empty
string and the `"[no response]"` placeholder when it is absent or empty;
in no case is the empty string returned. -/
theorem chat_truthiness_spec (data : Json)
    (h : msgContent data = some (Json.str [])) :
    (∀ s : List Char, s ≠ [] → jget data keyResponse = some (Json.str s) →
      chatExtract data = Json.str s) ∧
    (jget data keyResponse = none → chatExtract data = Json.str noResponseStr) ∧
    (jget data keyResponse = some (Json.str []) →
      chatExtract data = Json.str noResponseStr) ∧
    chatExtract data ≠ Json.str [] := by
  have hfall : chatExtract data =
      jsOrJson (jget data keyResponse) (Json.str noResponseStr) := by
    unfold chatExtract
    rw [h]
    rfl
  refine ⟨?_, ?_, ?_, ?_⟩
  · intro s hs hresp
    rw [hfall, hresp, jsOrJson_some]
    rw [if_pos (by simpa [truthy] using hs)]
  · intro hresp
    rw [hfall, hresp, jsOrJson_none]
  · intro hresp
    rw [hfall, hresp, jsOrJson_some]
    rfl
  · rw [hfall]
    cases hresp : jget data keyResponse with
    | none =>
      rw [jsOrJson_none]
      intro hc
      cases hc
    | some v =>
      rw [jsOrJson_some]
      by_cases hv : truthy v = true
      · rw [if_pos hv]
        intro hc
        subst hc
        simp [truthy] at hv
      · rw [if_neg hv]
        intro hc
        cases hc

/-- Witness data for C10: a decoded response with `message.content = ""` and
`response = "hi"`. -/
def chatDataW : Json :=
  .obj [(keyMessage, .obj [(keyContent, .str [])]), (keyResponse, .str "hi".toList)]

/-- Witness for C10 at a concrete input: the empty `message.content` is
skipped and the non-empty `response` string is returned. -/
theorem chat_truthiness_spec_witness :
    chatExtract chatDataW = Json.str ("hi".toList) :=
  (chat_truthiness_spec chatDataW rfl).1 ("hi".toList) (by decide) rfl

/-! ### C5: the single-text embedding client -/

/-- C5 (amended): `ollamaEmbed` propagates a transport failure and fails
when the body has no parseable brace span, but it never inspects the HTTP
status, and a decoded object lacking both a truthy `embedding` field and a
first `embeddings` element yields `ok none` (JS `undefined`) rather than an
error; when the singular field is absent and the collection is a non-empty
array, the first element is returned. -/
theorem embedQuery_behavior (text : List Char) (status : Nat) (body : List Char) :
    (ollamaEmbed text FetchResult.failure = .error .transport) ∧
    (∀ status2 : Nat, ollamaEmbed text (.success status body) =
      ollamaEmbed text (.success status2 body)) ∧
    (∀ e, safeParseOllamaJson body = .error e →
      ollamaEmbed text (.success status body) = .error (.badBody e)) ∧
    (∀ data, safeParseOllamaJson body = .ok data →
      ollamaEmbed text (.success status body) = .ok (embedExtract data)) ∧
    (∀ data, safeParseOllamaJson body = .ok data →
      jget data keyEmbedding = none → jget data keyEmbeddings = none →
      ollamaEmbed text (.success status body) = .ok none) ∧
    (∀ data v items, safeParseOllamaJson body = .ok data →
      jget data keyEmbedding = none →
      jget data keyEmbeddings = some (Json.arr (v :: items)) →
      ollamaEmbed text (.success status body) = .ok (some v)) := by
  refine ⟨rfl, ?_, ?_, ?_, ?_, ?_⟩
  · intro status2
    rw [ollamaEmbed_success, ollamaEmbed_success]
  · intro e he
    rw [ollamaEmbed_success, he]
  · intro data hd
    rw [ollamaEmbed_success, hd]
  · intro data hd h1 h2
    rw [ollamaEmbed_success, hd]
    show Except.ok (embedExtract data) = Except.ok none
    unfold embedExtract
    rw [h1, jsOrOpt_none, embedsFirst_eq, h2]
  · intro data v items hd h1 h2
    rw [ollamaEmbed_success, hd]
    show Except.ok (embedExtract data) = Except.ok (some v)
    unfold embedExtract
    rw [h1, jsOrOpt_none, embedsFirst_eq, h2]
    rfl

/-- C5 counterexample: a delivered response with non-2xx status 500 whose
body decodes to an object lacking both embedding fields makes `ollamaEmbed`
return `ok undefined` — no error of any kind is raised, contradicting the
claim that a non-2xx status or the missing fields yield a `ServiceError`. -/
theorem embedQuery_counterexample :
    ollamaEmbed ("q".toList) (.success 500 [openBrace, closeBrace]) = .ok none ∧
    (∀ e : SvcFail,
      ollamaEmbed ("q".toList) (.success 500 [openBrace, closeBrace]) ≠ .error e) :=
  ⟨rfl, fun _ hc => Except.noConfusion ((rfl :
      ollamaEmbed ("q".toList) (.success 500 [openBrace, closeBrace]) = .ok none
    ).symm.trans hc)⟩

/-- Witness for the amended C5 statement: concrete inputs exercise the
transport-failure path and the undecodable-body path. -/
theorem embedQuery_behavior_witness :
    ollamaEmbed ("q".toList) FetchResult.failure = .error .transport ∧
    ollamaEmbed ("q".toList) (.success 200 ("oops".toList)) =
      .error (.badBody .noObject) :=
  ⟨(embedQuery_behavior ("q".toList) 200 ("oops".toList)).1,
    (embedQuery_behavior ("q".toList) 200 ("oops".toList)).2.2.1 .noObject rfl⟩

/-! ### C6: the batch embedding client -/

/-- C6: evaluation at the failing input — one requested text answered by
`embeddings: []` — shows the batch client returning the empty list (length
0, not the input length 1) instead of failing: the source checks only
`Array.isArray` and never compares the reply length with the request
length. A decoded object without an `embeddings` array does fail (third
conjunct), so the array-shape half of the claim is real; the length half is
not. -/
theorem embedBatch_failing_eval :
    ollamaEmbedBatch [("a".toList)]
      (.success 200 (renderJ (Json.obj [(keyEmbeddings, Json.arr [])]))) =
      .ok ([] : List Json) ∧
    ([] : List Json).length ≠ [("a".toList)].length ∧
    ollamaEmbedBatch [("a".toList)] (.success 200 [openBrace, closeBrace]) =
      .error .notArray :=
  ⟨rfl, by decide, rfl⟩

/-! ### C9: the response decoder — decimal digits -/

theorem digitChar_isDigit : ∀ d : Nat, d < 10 → (Nat.digitChar d).isDigit = true := by
  decide

theorem digitChar_val : ∀ d : Nat, d < 10 → (Nat.digitChar d).toNat - 48 = d := by
  decide

theorem renderNatAux_eq_digits :
    ∀ (fuel n : Nat), n ≤ fuel →
      renderNatAux fuel n = ((Nat.digits 10 n).map Nat.digitChar).reverse := by
  intro fuel
  induction fuel with
  | zero =>
    intro n hn
    interval_cases n
    rw [show renderNatAux 0 0 = [] from rfl, Nat.digits_zero]
    rfl
  | succ fuel ih =>
    intro n hn
    match n with
    | 0 =>
      rw [show renderNatAux (fuel + 1) 0 = [] from rfl, Nat.digits_zero]
      rfl
    | m + 1 =>
      show renderNatAux fuel ((m + 1) / 10) ++ [Nat.digitChar ((m + 1) % 10)] = _
      rw [ih ((m + 1) / 10) (by
        have := Nat.div_lt_self (Nat.succ_pos m) (by norm_num : 1 < 10)
        omega)]
      rw [Nat.digits_def' (by norm_num : (1:Nat) < 10) (Nat.succ_pos m)]
      simp

theorem renderNat_digits {n : Nat} (hn : n ≠ 0) :
    renderNat n = ((Nat.digits 10 n).map Nat.digitChar).reverse := by
  unfold renderNat
  rw [if_neg hn]
  exact renderNatAux_eq_digits n n le_rfl

theorem renderNat_all_digits (n : Nat) : ∀ c ∈ renderNat n, c.isDigit = true := by
  by_cases hn : n = 0
  · subst hn
    intro c hc
    have hc0 : c = '0' := by simpa [renderNat] using hc
    subst hc0
    decide
  · rw [renderNat_digits hn]
    intro c hc
    rw [List.mem_reverse] at hc
    obtain ⟨d, hd, rfl⟩ := List.mem_map.mp hc
    exact digitChar_isDigit d (Nat.digits_lt_base (by norm_num) hd)

theorem renderNat_ne_nil (n : Nat) : renderNat n ≠ [] := by
  by_cases hn : n = 0
  · subst hn
    simp [renderNat]
  · rw [renderNat_digits hn]
    simp only [ne_eq, List.reverse_eq_nil_iff, List.map_eq_nil_iff]
    exact Nat.digits_ne_nil_iff_ne_zero.mpr hn

theorem parseNatChars_append (A B : List Char) :
    parseNatChars (A ++ B) =
      B.foldl (fun a c => a * 10 + (c.toNat - 48)) (parseNatChars A) := by
  unfold parseNatChars
  rw [List.foldl_append]

theorem foldl_digits_rev :
    ∀ l : List Nat, (∀ d ∈ l, d < 10) →
      parseNatChars ((l.map Nat.digitChar).reverse) = Nat.ofDigits 10 l := by
  intro l
  induction l with
  | nil => intro _; rfl
  | cons d t ih =>
    intro hlt
    rw [List.map_cons, List.reverse_cons, parseNatChars_append]
    show parseNatChars ((t.map Nat.digitChar).reverse) * 10 +
      ((Nat.digitChar d).toNat - 48) = _
    rw [ih (fun x hx => hlt x (List.mem_cons_of_mem _ hx)),
      digitChar_val d (hlt d (List.mem_cons_self _ _)), Nat.ofDigits_cons]
    omega

theorem parseNatChars_renderNat (n : Nat) : parseNatChars (renderNat n) = n := by
  by_cases hn : n = 0
  · subst hn
    rfl
  · rw [renderNat_digits hn,
      foldl_digits_rev _ (fun d hd => Nat.digits_lt_base (by norm_num) hd),
      Nat.ofDigits_digits]

/-! ### C9: token-level round trips -/

theorem takeWhile_dropWhile_append {p : Char → Bool} :
    ∀ (A rest : List Char), (∀ c ∈ A, p c = true) →
      (∀ c, rest.head? = some c → p c = false) →
      (A ++ rest).takeWhile p = A ∧ (A ++ rest).dropWhile p = rest := by
  intro A
  induction A with
  | nil =>
    intro rest _ hstop
    cases rest with
    | nil => exact ⟨rfl, rfl⟩
    | cons r t =>
      have hr : p r = false := hstop r rfl
      exact ⟨by simp [List.takeWhile_cons, hr], by simp [List.dropWhile_cons, hr]⟩
  | cons a A' ih =>
    intro rest hall hstop
    have ha : p a = true := hall a (List.mem_cons_self _ _)
    obtain ⟨h1, h2⟩ := ih rest (fun c hc => hall c (List.mem_cons_of_mem _ hc)) hstop
    exact ⟨by simp [List.takeWhile_cons, ha, h1], by simp [List.dropWhile_cons, ha, h2]⟩

theorem parseDigits_render (n : Nat) (rest : List Char)
    (hrest : ∀ c, rest.head? = some c → c.isDigit = false) :
    parseDigits (renderNat n ++ rest) = some (n, rest) := by
  obtain ⟨h1, h2⟩ :=
    takeWhile_dropWhile_append (renderNat n) rest (renderNat_all_digits n) hrest
  unfold parseDigits
  rw [h1, h2]
  rw [if_neg (by simp [List.isEmpty_iff, renderNat_ne_nil n])]
  rw [parseNatChars_renderNat]

theorem parseStrRest_render (s rest : List Char) (hs : wfStr s) :
    parseStrRest (s ++ '"' :: rest) = some (s, rest) := by
  obtain ⟨h1, h2⟩ := takeWhile_dropWhile_append s ('"' :: rest) hs
    (by
      intro c hc
      cases hc
      decide)
  unfold parseStrRest
  rw [h1, h2]
  rfl

theorem digit_facts (c : Char) (h : c.isDigit = true) :
    c.isWhitespace = false ∧ c ≠ openBrace ∧ c ≠ '[' ∧ c ≠ '"' ∧ c ≠ 'n' ∧
      c ≠ 't' ∧ c ≠ 'f' ∧ c ≠ '-' ∧ c ≠ ']' := by
  simp only [Char.isDigit, Bool.and_eq_true, decide_eq_true_eq] at h
  obtain ⟨h1, h2⟩ := h
  refine ⟨?_, ?_, ?_, ?_, ?_, ?_, ?_, ?_, ?_⟩
  · by_cases hw : c.isWhitespace = true
    · rcases (by simpa [Char.isWhitespace, decide_eq_true_eq] using hw :
        ((c = ' ' ∨ c = '\t') ∨ c = '\x0d') ∨ c = '\n') with ((rfl | rfl) | rfl) | rfl <;>
        revert h1 h2 <;> decide
    · simpa using hw
  all_goals rintro rfl <;> revert h1 h2 <;> decide

theorem skipWs_cons_not_ws {c : Char} (h : c.isWhitespace = false) (t : List Char) :
    skipWs (c :: t) = c :: t := by
  unfold skipWs
  rw [List.dropWhile_cons, if_neg (by simp [h])]

theorem parseV_head (fuel : Nat) (c : Char) (t : List Char)
    (hws : c.isWhitespace = false) :
    parseV (fuel + 1) (c :: t) =
      (if c = openBrace then parseObjBody fuel t
      else if c = '[' then parseArrBody fuel t
      else if c = '"' then
        match parseStrRest t with
        | some (body, rest) => some (Json.str body, rest)
        | none => none
      else if c = 'n' then
        if ("ull".toList).isPrefixOf t then some (Json.null, t.drop 3) else none
      else if c = 't' then
        if ("rue".toList).isPrefixOf t then some (Json.bool true, t.drop 3) else none
      else if c = 'f' then
        if ("alse".toList).isPrefixOf t then some (Json.bool false, t.drop 4) else none
      else if c = '-' then
        match parseDigits t with
        | some (n, rest) => some (Json.num (-(n : Int)), rest)
        | none => none
      else if c.isDigit then
        match parseDigits (c :: t) with
        | some (n, rest) => some (Json.num (n : Int), rest)
        | none => none
      else none) := by
  simp only [parseV]
  rw [skipWs_cons_not_ws hws]

theorem parseArrBody_succ (fuel : Nat) (s : List Char) :
    parseArrBody (fuel + 1) s =
      match skipWs s with
      | ']' :: rest => some (Json.arr [], rest)
      | _ =>
        match parseItems fuel s with
        | some (items, rest) => some (Json.arr items, rest)
        | none => none := rfl

theorem parseObjBody_succ (fuel : Nat) (s : List Char) :
    parseObjBody (fuel + 1) s =
      match skipWs s with
      | '\x7d' :: rest => some (Json.obj [], rest)
      | _ =>
        match parseFields fuel s with
        | some (fields, rest) => some (Json.obj fields, rest)
        | none => none := rfl

theorem parseItems_succ (fuel : Nat) (s : List Char) :
    parseItems (fuel + 1) s =
      match parseV fuel s with
      | none => none
      | some (v, rest) =>
        match skipWs rest with
        | ',' :: rest2 =>
          match parseItems fuel rest2 with
          | some (items, rest3) => some (v :: items, rest3)
          | none => none
        | ']' :: rest2 => some ([v], rest2)
        | _ => none := rfl

theorem parseFields_succ (fuel : Nat) (s : List Char) :
    parseFields (fuel + 1) s =
      match skipWs s with
      | '"' :: t =>
        match parseStrRest t with
        | none => none
        | some (key, rest) =>
          match skipWs rest with
          | ':' :: rest2 =>
            match parseV fuel rest2 with
            | none => none
            | some (v, rest3) =>
              match skipWs rest3 with
              | ',' :: rest4 =>
                match parseFields fuel rest4 with
                | some (fields, rest5) => some ((key, v) :: fields, rest5)
                | none => none
              | '\x7d' :: rest4 => some ([(key, v)], rest4)
              | _ => none
          | _ => none
      | _ => none := rfl

/-! ### C9: serialization heads and size bounds -/

theorem renderItems_cons_cons (x y : Json) (t : List Json) :
    renderItems (x :: y :: t) = renderJ x ++ ',' :: renderItems (y :: t) := rfl

theorem renderFields_cons_cons (kv kv2 : List Char × Json) (t : List (List Char × Json)) :
    renderFields (kv :: kv2 :: t) =
      '"' :: kv.1 ++ '"' :: ':' :: renderJ kv.2 ++ ',' :: renderFields (kv2 :: t) := rfl

theorem renderJ_num (n : Int) :
    renderJ (Json.num n) =
      if n < 0 then '-' :: renderNat n.natAbs else renderNat n.toNat := rfl

theorem render_head (j : Json) :
    ∃ c X, renderJ j = c :: X ∧ c.isWhitespace = false ∧ c ≠ ']' := by
  cases j with
  | null => exact ⟨'n', _, rfl, by decide, by decide⟩
  | bool b =>
    cases b with
    | true => exact ⟨'t', _, rfl, by decide, by decide⟩
    | false => exact ⟨'f', _, rfl, by decide, by decide⟩
  | num n =>
    rw [renderJ_num]
    by_cases hn : n < 0
    · rw [if_pos hn]
      exact ⟨'-', _, rfl, by decide, by decide⟩
    · rw [if_neg hn]
      obtain ⟨c, X, hcx⟩ := List.exists_cons_of_ne_nil (renderNat_ne_nil n.toNat)
      have hdig : c.isDigit = true := by
        apply renderNat_all_digits n.toNat
        rw [hcx]
        exact List.mem_cons_self _ _
      obtain ⟨hws, _, _, _, _, _, _, _, hrb⟩ := digit_facts c hdig
      exact ⟨c, X, hcx, hws, hrb⟩
  | str s => exact ⟨'"', _, rfl, by decide, by decide⟩
  | arr items => exact ⟨'[', _, rfl, by decide, by decide⟩
  | obj fields => exact ⟨openBrace, _, rfl, by decide, by decide⟩

theorem skipWs_render_append (j : Json) (rest : List Char) :
    skipWs (renderJ j ++ rest) = renderJ j ++ rest := by
  obtain ⟨c, X, hcx, hws, _⟩ := render_head j
  rw [hcx, List.cons_append, skipWs_cons_not_ws hws]

theorem itemsSize_cons (x : Json) (t : List Json) :
    itemsSize (x :: t) = 1 + jsonSize x + itemsSize t := rfl

theorem fieldsSize_cons (kv : List Char × Json) (t : List (List Char × Json)) :
    fieldsSize (kv :: t) = 1 + jsonSize kv.2 + fieldsSize t := rfl

mutual
theorem jsonSize_le_render : ∀ j : Json, jsonSize j ≤ 2 * (renderJ j).length
  | .null => by norm_num [jsonSize, renderJ]
  | .bool true => by norm_num [jsonSize, renderJ]
  | .bool false => by norm_num [jsonSize, renderJ]
  | .num n => by
    have h : 1 ≤ (renderJ (Json.num n)).length := by
      rw [renderJ_num]
      by_cases hn : n < 0
      · rw [if_pos hn]
        simp
      · rw [if_neg hn]
        obtain ⟨c, X, hcx⟩ := List.exists_cons_of_ne_nil (renderNat_ne_nil n.toNat)
        rw [hcx]
        simp
    simp only [jsonSize]
    omega
  | .str s => by
    simp only [jsonSize, renderJ, List.length_cons, List.length_append,
      List.length_singleton]
    omega
  | .arr items => by
    have h := itemsSize_le_render items
    simp only [jsonSize, renderJ, List.length_cons, List.length_append,
      List.length_singleton]
    omega
  | .obj fields => by
    have h := fieldsSize_le_render fields
    simp only [jsonSize, renderJ, List.length_cons, List.length_append,
      List.length_singleton]
    omega
theorem itemsSize_le_render :
    ∀ xs : List Json, itemsSize xs ≤ 2 * (renderItems xs).length + 1
  | [] => by norm_num [itemsSize, renderItems]
  | [x] => by
    have h := jsonSize_le_render x
    simp only [itemsSize, renderItems]
    omega
  | x :: y :: t => by
    have h1 := jsonSize_le_render x
    have h2 := itemsSize_le_render (y :: t)
    rw [itemsSize_cons, renderItems_cons_cons]
    simp only [List.length_append, List.length_cons]
    omega
theorem fieldsSize_le_render :
    ∀ kvs : List (List Char × Json), fieldsSize kvs ≤ 2 * (renderFields kvs).length + 1
  | [] => by norm_num [fieldsSize, renderFields]
  | [kv] => by
    have h := jsonSize_le_render kv.2
    simp only [fieldsSize, renderFields, List.length_cons, List.length_append]
    omega
  | kv :: kv2 :: t => by
    have h1 := jsonSize_le_render kv.2
    have h2 := fieldsSize_le_render (kv2 :: t)
    rw [fieldsSize_cons, renderFields_cons_cons]
    simp only [List.length_append, List.length_cons]
    omega
end

theorem jsonSize_pos (j : Json) : 1 ≤ jsonSize j := by
  cases j <;> simp [jsonSize] <;> omega

theorem itemsSize_pos {xs : List Json} (h : xs ≠ []) : 1 ≤ itemsSize xs := by
  cases xs with
  | nil => exact absurd rfl h
  | cons x t =>
    rw [itemsSize_cons]
    omega

theorem fieldsSize_pos {kvs : List (List Char × Json)} (h : kvs ≠ []) :
    1 ≤ fieldsSize kvs := by
  cases kvs with
  | nil => exact absurd rfl h
  | cons kv t =>
    rw [fieldsSize_cons]
    omega

theorem renderItems_cons_head (x : Json) (t : List Json) :
    ∃ c X, renderItems (x :: t) = c :: X ∧ c.isWhitespace = false ∧ c ≠ ']' := by
  obtain ⟨c, X, hcx, hws, hne⟩ := render_head x
  cases t with
  | nil => exact ⟨c, X, hcx, hws, hne⟩
  | cons y t' =>
    refine ⟨c, X ++ ',' :: renderItems (y :: t'), ?_, hws, hne⟩
    rw [renderItems_cons_cons, hcx]
    rfl

theorem parseItems_step (fuel : Nat) (s : List Char) (v : Json) (rest : List Char)
    (h : parseV fuel s = some (v, rest)) :
    parseItems (fuel + 1) s =
      match skipWs rest with
      | ',' :: rest2 =>
        match parseItems fuel rest2 with
        | some (items, rest3) => some (v :: items, rest3)
        | none => none
      | ']' :: rest2 => some ([v], rest2)
      | _ => none := by
  rw [parseItems_succ, h]

theorem parseFields_step (fuel : Nat) (t key rest2 : List Char) (v : Json)
    (rest3 : List Char)
    (h1 : parseStrRest t = some (key, ':' :: rest2))
    (h2 : parseV fuel rest2 = some (v, rest3)) :
    parseFields (fuel + 1) ('"' :: t) =
      match skipWs rest3 with
      | ',' :: rest4 =>
        match parseFields fuel rest4 with
        | some (fields, rest5) => some ((key, v) :: fields, rest5)
        | none => none
      | '\x7d' :: rest4 => some ([(key, v)], rest4)
      | _ => none := by
  rw [parseFields_succ, skipWs_cons_not_ws (by decide)]
  show (match parseStrRest t with
    | none => none
    | some (key, rest) =>
      match skipWs rest with
      | ':' :: rest2 =>
        match parseV fuel rest2 with
        | none => none
        | some (v, rest3) =>
          match skipWs rest3 with
          | ',' :: rest4 =>
            match parseFields fuel rest4 with
            | some (fields, rest5) => some ((key, v) :: fields, rest5)
            | none => none
          | '\x7d' :: rest4 => some ([(key, v)], rest4)
          | _ => none
      | _ => none) = _
  rw [h1]
  show (match skipWs (':' :: rest2) with
    | ':' :: rest2 =>
      match parseV fuel rest2 with
      | none => none
      | some (v, rest3) =>
        match skipWs rest3 with
        | ',' :: rest4 =>
          match parseFields fuel rest4 with
          | some (fields, rest5) => some ((key, v) :: fields, rest5)
          | none => none
        | '\x7d' :: rest4 => some ([(key, v)], rest4)
        | _ => none
    | _ => none) = _
  rw [skipWs_cons_not_ws (by decide)]
  show (match parseV fuel rest2 with
    | none => none
    | some (v, rest3) =>
      match skipWs rest3 with
      | ',' :: rest4 =>
        match parseFields fuel rest4 with
        | some (fields, rest5) => some ((key, v) :: fields, rest5)
        | none => none
      | '\x7d' :: rest4 => some ([(key, v)], rest4)
      | _ => none) = _
  rw [h2]

theorem parse_render_fuel (fuel : Nat) :
    (∀ (j : Json) (rest : List Char), WfJson j → jsonSize j ≤ fuel →
      (∀ c, rest.head? = some c → c.isDigit = false) →
      parseV fuel (renderJ j ++ rest) = some (j, rest)) ∧
    (∀ (xs : List Json) (rest : List Char), (∀ x ∈ xs, WfJson x) → xs ≠ [] →
      itemsSize xs ≤ fuel →
      parseItems fuel (renderItems xs ++ ']' :: rest) = some (xs, rest)) ∧
    (∀ (kvs : List (List Char × Json)) (rest : List Char),
      (∀ kv ∈ kvs, wfStr kv.1) → (∀ kv ∈ kvs, WfJson kv.2) → kvs ≠ [] →
      fieldsSize kvs ≤ fuel →
      parseFields fuel (renderFields kvs ++ closeBrace :: rest) = some (kvs, rest)) := by
  induction fuel using Nat.strong_induction_on with
  | _ fuel ih =>
  cases fuel with
  | zero =>
    refine ⟨?_, ?_, ?_⟩
    · intro j rest _ hsz _
      exact absurd hsz (by have := jsonSize_pos j; omega)
    · intro xs rest _ hne hsz
      exact absurd hsz (by have := itemsSize_pos hne; omega)
    · intro kvs rest _ _ hne hsz
      exact absurd hsz (by have := fieldsSize_pos hne; omega)
  | succ m =>
  refine ⟨?_, ?_, ?_⟩
  · intro j rest hwf hsz hrest
    cases hwf with
    | null =>
      rw [show renderJ Json.null ++ rest = 'n' :: ("ull".toList ++ rest) from rfl,
        parseV_head m 'n' _ (by decide),
        if_neg (by decide), if_neg (by decide), if_neg (by decide), if_pos rfl,
        if_pos (List.isPrefixOf_iff_prefix.mpr (List.prefix_append _ _)),
        show ("ull".toList ++ rest).drop 3 = rest from rfl]
    | bool b =>
      cases b with
      | true =>
        rw [show renderJ (Json.bool true) ++ rest = 't' :: ("rue".toList ++ rest) from rfl,
          parseV_head m 't' _ (by decide),
          if_neg (by decide), if_neg (by decide), if_neg (by decide), if_neg (by decide),
          if_pos rfl,
          if_pos (List.isPrefixOf_iff_prefix.mpr (List.prefix_append _ _)),
          show ("rue".toList ++ rest).drop 3 = rest from rfl]
      | false =>
        rw [show renderJ (Json.bool false) ++ rest = 'f' :: ("alse".toList ++ rest) from rfl,
          parseV_head m 'f' _ (by decide),
          if_neg (by decide), if_neg (by decide), if_neg (by decide), if_neg (by decide),
          if_neg (by decide), if_pos rfl,
          if_pos (List.isPrefixOf_iff_prefix.mpr (List.prefix_append _ _)),
          show ("alse".toList ++ rest).drop 4 = rest from rfl]
    | num n =>
      rw [show renderJ (Json.num n) ++ rest =
        (if n < 0 then '-' :: renderNat n.natAbs else renderNat n.toNat) ++ rest from rfl]
      by_cases hn : n < 0
      · rw [if_pos hn, List.cons_append,
          parseV_head m '-' _ (by decide),
          if_neg (by decide), if_neg (by decide), if_neg (by decide), if_neg (by decide),
          if_neg (by decide), if_neg (by decide), if_pos rfl,
          parseDigits_render n.natAbs rest hrest]
        show some (Json.num (-(n.natAbs : Int)), rest) = some (Json.num n, rest)
        have habs : -((n.natAbs : Int)) = n := by omega
        rw [habs]
      · rw [if_neg hn]
        obtain ⟨c, X, hcx⟩ := List.exists_cons_of_ne_nil (renderNat_ne_nil n.toNat)
        have hdig : c.isDigit = true := by
          apply renderNat_all_digits n.toNat
          rw [hcx]
          exact List.mem_cons_self _ _
        obtain ⟨hws, d1, d2, d3, d4, d5, d6, d7, _⟩ := digit_facts c hdig
        rw [hcx, List.cons_append,
          parseV_head m c _ hws,
          if_neg d1, if_neg d2, if_neg d3, if_neg d4, if_neg d5, if_neg d6, if_neg d7,
          if_pos hdig,
          show c :: (X ++ rest) = renderNat n.toNat ++ rest from by rw [hcx]; rfl,
          parseDigits_render n.toNat rest hrest]
        show some (Json.num ((n.toNat : Nat) : Int), rest) = some (Json.num n, rest)
        have htn : (((n.toNat : Nat)) : Int) = n := Int.toNat_of_nonneg (not_lt.mp hn)
        rw [htn]
    | str s hs =>
      rw [show renderJ (Json.str s) ++ rest = '"' :: ((s ++ ['"']) ++ rest) from rfl,
        List.append_assoc,
        show (['"'] ++ rest) = '"' :: rest from rfl,
        parseV_head m '"' _ (by decide),
        if_neg (by decide), if_neg (by decide), if_pos rfl,
        parseStrRest_render s rest hs]
    | arr items hitems =>
      rw [show renderJ (Json.arr items) ++ rest =
          '[' :: ((renderItems items ++ [']']) ++ rest) from rfl,
        List.append_assoc,
        show ([']'] ++ rest) = ']' :: rest from rfl,
        parseV_head m '[' _ (by decide),
        if_neg (by decide), if_pos rfl]
      have hsz' : 2 + itemsSize items ≤ m + 1 := by
        simpa [jsonSize] using hsz
      obtain ⟨m', rfl⟩ : ∃ m', m = m' + 1 := ⟨m - 1, by omega⟩
      rw [parseArrBody_succ]
      cases items with
      | nil =>
        rw [show renderItems [] ++ ']' :: rest = ']' :: rest from rfl,
          skipWs_cons_not_ws (by decide)]
        rfl
      | cons x t =>
        obtain ⟨c, X, hcx, hws, hne⟩ := renderItems_cons_head x t
        rw [hcx, List.cons_append, skipWs_cons_not_ws hws]
        split
        · next r2 heq =>
          exfalso
          have : c = ']' := (List.cons.injEq _ _ _ _).mp heq |>.1
          exact hne this
        · next =>
          rw [← List.cons_append, ← hcx,
            (ih m' (by omega)).2.1 (x :: t) rest hitems (by simp)
              (by omega)]
    | obj fields hkeys hvals =>
      rw [show renderJ (Json.obj fields) ++ rest =
          openBrace :: ((renderFields fields ++ [closeBrace]) ++ rest) from rfl,
        List.append_assoc,
        show ([closeBrace] ++ rest) = closeBrace :: rest from rfl,
        parseV_head m openBrace _ (by decide),
        if_pos rfl]
      have hsz' : 2 + fieldsSize fields ≤ m + 1 := by
        simpa [jsonSize] using hsz
      obtain ⟨m', rfl⟩ : ∃ m', m = m' + 1 := ⟨m - 1, by omega⟩
      rw [parseObjBody_succ]
      cases fields with
      | nil =>
        rw [show renderFields [] ++ closeBrace :: rest = closeBrace :: rest from rfl,
          skipWs_cons_not_ws (by decide)]
        rfl
      | cons kv t =>
        have hhead : ∃ X, renderFields (kv :: t) = '"' :: X := by
          cases t with
          | nil => exact ⟨_, rfl⟩
          | cons kv2 t' => exact ⟨_, rfl⟩
        obtain ⟨X, hX⟩ := hhead
        rw [hX, List.cons_append, skipWs_cons_not_ws (by decide)]
        split
        · next r2 heq =>
          exfalso
          have : '"' = '\x7d' := (List.cons.injEq _ _ _ _).mp heq |>.1
          exact absurd this (by decide)
        · next =>
          rw [← List.cons_append, ← hX,
            (ih m' (by omega)).2.2 (kv :: t) rest hkeys hvals (by simp)
              (by omega)]
  · intro xs rest hwf hne hsz
    cases xs with
    | nil => exact absurd rfl hne
    | cons x t =>
      rw [itemsSize_cons] at hsz
      cases t with
      | nil =>
        have hp := (ih m (by omega)).1 x (']' :: rest) (hwf x (List.mem_cons_self _ _))
          (by have h0 : itemsSize ([] : List Json) = 0 := rfl; omega)
          (by intro c hc; cases hc; decide)
        rw [show (renderItems [x] : List Char) = renderJ x from rfl,
          parseItems_step m _ x (']' :: rest) hp, skipWs_cons_not_ws (by decide)]
        rfl
      | cons y t' =>
        have hp := (ih m (by omega)).1 x
          (',' :: (renderItems (y :: t') ++ ']' :: rest))
          (hwf x (List.mem_cons_self _ _))
          (by have := itemsSize_pos (show (y :: t') ≠ [] by simp); omega)
          (by intro c hc; cases hc; decide)
        have hrw : renderItems (x :: y :: t') ++ ']' :: rest =
            renderJ x ++ (',' :: (renderItems (y :: t') ++ ']' :: rest)) := by
          rw [renderItems_cons_cons, List.append_assoc]
          rfl
        rw [hrw, parseItems_step m _ x _ hp, skipWs_cons_not_ws (by decide)]
        show (match parseItems m (renderItems (y :: t') ++ ']' :: rest) with
          | some (items, rest3) => some (x :: items, rest3)
          | none => none) = some (x :: y :: t', rest)
        rw [(ih m (by omega)).2.1 (y :: t') rest
          (fun z hz => hwf z (List.mem_cons_of_mem _ hz)) (by simp)
          (by have := jsonSize_pos x; omega)]
  · intro kvs rest hkeys hvals hne hsz
    cases kvs with
    | nil => exact absurd rfl hne
    | cons kv t =>
      rw [fieldsSize_cons] at hsz
      cases t with
      | nil =>
        have hrw : renderFields [kv] ++ closeBrace :: rest =
            '"' :: (kv.1 ++ '"' :: ':' :: (renderJ kv.2 ++ closeBrace :: rest)) := by
          show ('"' :: (kv.1 ++ '"' :: ':' :: renderJ kv.2)) ++ closeBrace :: rest = _
          simp only [List.cons_append, List.append_assoc]
        have hstr : parseStrRest (kv.1 ++ '"' :: ':' :: (renderJ kv.2 ++ closeBrace :: rest)) =
            some (kv.1, ':' :: (renderJ kv.2 ++ closeBrace :: rest)) :=
          parseStrRest_render kv.1 _ (hkeys kv (List.mem_cons_self _ _))
        have hp := (ih m (by omega)).1 kv.2 (closeBrace :: rest)
          (hvals kv (List.mem_cons_self _ _)) (by omega)
          (by intro c hc; cases hc; decide)
        rw [hrw, parseFields_step m _ kv.1 _ kv.2 (closeBrace :: rest) hstr hp,
          skipWs_cons_not_ws (by decide)]
        rfl
      | cons kv2 t' =>
        have hrw : renderFields (kv :: kv2 :: t') ++ closeBrace :: rest =
            '"' :: (kv.1 ++ '"' :: ':' ::
              (renderJ kv.2 ++ ',' :: (renderFields (kv2 :: t') ++ closeBrace :: rest))) := by
          rw [renderFields_cons_cons]
          simp only [List.cons_append, List.append_assoc]
        have hstr : parseStrRest (kv.1 ++ '"' :: ':' ::
            (renderJ kv.2 ++ ',' :: (renderFields (kv2 :: t') ++ closeBrace :: rest))) =
            some (kv.1, ':' ::
              (renderJ kv.2 ++ ',' :: (renderFields (kv2 :: t') ++ closeBrace :: rest))) :=
          parseStrRest_render kv.1 _ (hkeys kv (List.mem_cons_self _ _))
        have hp := (ih m (by omega)).1 kv.2
          (',' :: (renderFields (kv2 :: t') ++ closeBrace :: rest))
          (hvals kv (List.mem_cons_self _ _))
          (by have := fieldsSize_pos (show (kv2 :: t') ≠ [] by simp); omega)
          (by intro c hc; cases hc; decide)
        rw [hrw, parseFields_step m _ kv.1 _ kv.2 _ hstr hp,
          skipWs_cons_not_ws (by decide)]
        show (match parseFields m (renderFields (kv2 :: t') ++ closeBrace :: rest) with
          | some (fields, rest5) => some ((kv.1, kv.2) :: fields, rest5)
          | none => none) = some (kv :: kv2 :: t', rest)
        rw [(ih m (by omega)).2.2 (kv2 :: t') rest
          (fun z hz => hkeys z (List.mem_cons_of_mem _ hz))
          (fun z hz => hvals z (List.mem_cons_of_mem _ hz)) (by simp)
          (by have := jsonSize_pos kv.2; omega)]

theorem parseJson_render {j : Json} (hwf : WfJson j) :
    parseJson (renderJ j) = some j := by
  unfold parseJson
  have hp := (parse_render_fuel (2 * (renderJ j).length + 2)).1 j [] hwf
    (by have := jsonSize_le_render j; omega)
    (by intro c hc; simp at hc)
  rw [show renderJ j ++ ([] : List Char) = renderJ j from by simp] at hp
  rw [hp]
  rfl

theorem idxOf_single_cons_self (c : Char) (t : List Char) :
    idxOf [c] (c :: t) = some 0 := by
  simp only [idxOf]
  have hp : [c].isPrefixOf (c :: t) = true :=
    List.isPrefixOf_iff_prefix.mpr ⟨t, by simp⟩
  rw [if_pos hp]

theorem idxOf_single_append {c : Char} :
    ∀ (pre : List Char), (∀ x ∈ pre, x ≠ c) → ∀ t : List Char,
      idxOf [c] (pre ++ c :: t) = some pre.length := by
  intro pre
  induction pre with
  | nil => intro _ t; exact idxOf_single_cons_self c t
  | cons a pre' ih =>
    intro hpre t
    have ha : a ≠ c := hpre a (List.mem_cons_self _ _)
    show idxOf [c] (a :: (pre' ++ c :: t)) = some (pre'.length + 1)
    simp only [idxOf]
    rw [if_neg, ih (fun x hx => hpre x (List.mem_cons_of_mem _ hx)) t]
    · rfl
    · intro hpref
      obtain ⟨s, hs⟩ := List.isPrefixOf_iff_prefix.mp hpref
      rw [List.singleton_append] at hs
      injection hs with h1 _
      exact ha h1.symm

theorem idxOf_single_none {c : Char} :
    ∀ l : List Char, (∀ x ∈ l, x ≠ c) → idxOf [c] l = none := by
  intro l
  induction l with
  | nil => intro _; rfl
  | cons a t ih =>
    intro h
    simp only [idxOf]
    rw [if_neg, ih (fun x hx => h x (List.mem_cons_of_mem _ hx))]
    · rfl
    · intro hpref
      obtain ⟨s, hs⟩ := List.isPrefixOf_iff_prefix.mp hpref
      rw [List.singleton_append] at hs
      injection hs with h1 _
      exact h a (List.mem_cons_self _ _) h1.symm

theorem safeParse_eq (raw : List Char) (i k : Nat)
    (hi : idxOf [openBrace] raw = some i)
    (hk : lastIdxOfChar closeBrace raw = some k) :
    safeParseOllamaJson raw
      = match parseJson ((raw.drop i).take (k + 1 - i)) with
        | some v => .ok v
        | none => .error .parseFailed := by
  unfold safeParseOllamaJson
  rw [hi, hk]

/-- C9: amended decoder behaviour of safeParseOllamaJson. Recovery succeeds
for a serialized object wrapped in prose only when the leading prose has no
opening brace and the trailing prose has no closing brace; a missing brace on
either side yields the could-not-locate error, and an unparseable located
span yields the parse-failure error. -/
theorem decoder_spec :
    (∀ (pre suf : List Char) (j : Json), WfJson j → isObjJson j →
      (∀ x ∈ pre, x ≠ openBrace) → (∀ x ∈ suf, x ≠ closeBrace) →
      safeParseOllamaJson (pre ++ renderJ j ++ suf) = .ok j) ∧
    (∀ raw : List Char, (∀ x ∈ raw, x ≠ openBrace) →
      safeParseOllamaJson raw = .error .noObject) ∧
    (∀ raw : List Char, (∀ x ∈ raw, x ≠ closeBrace) →
      safeParseOllamaJson raw = .error .noObject) ∧
    (∀ (raw : List Char) (i k : Nat),
      idxOf [openBrace] raw = some i → lastIdxOfChar closeBrace raw = some k →
      parseJson ((raw.drop i).take (k + 1 - i)) = none →
      safeParseOllamaJson raw = .error .parseFailed) := by
  refine ⟨?_, ?_, ?_, ?_⟩
  · intro pre suf j hwf hobj hpre hsuf
    obtain ⟨kvs, rfl⟩ := hobj
    have hR : renderJ (Json.obj kvs)
        = openBrace :: (renderFields kvs ++ [closeBrace]) := rfl
    have hraw : pre ++ renderJ (Json.obj kvs) ++ suf
        = pre ++ openBrace :: (renderFields kvs ++ [closeBrace] ++ suf) := by
      rw [hR]; simp [List.append_assoc]
    have hfirst : idxOf [openBrace] (pre ++ renderJ (Json.obj kvs) ++ suf)
        = some pre.length := by
      rw [hraw]; exact idxOf_single_append pre hpre _
    have hrev : (pre ++ renderJ (Json.obj kvs) ++ suf).reverse
        = suf.reverse ++ closeBrace :: ((renderFields kvs).reverse ++ openBrace :: pre.reverse) := by
      rw [hR]; simp [List.reverse_append]
    have hsufrev : ∀ x ∈ suf.reverse, x ≠ closeBrace := by
      intro x hx; exact hsuf x (List.mem_reverse.mp hx)
    have hidxrev : idxOf [closeBrace] (pre ++ renderJ (Json.obj kvs) ++ suf).reverse
        = some suf.length := by
      rw [hrev, idxOf_single_append suf.reverse hsufrev _, List.length_reverse]
    have hlen : (pre ++ renderJ (Json.obj kvs) ++ suf).length
        = pre.length + ((renderFields kvs).length + 2) + suf.length := by
      simp only [hR, List.length_append, List.length_cons, List.length_nil]
    have hlast : lastIdxOfChar closeBrace (pre ++ renderJ (Json.obj kvs) ++ suf)
        = some (pre.length + (renderFields kvs).length + 1) := by
      unfold lastIdxOfChar
      rw [hidxrev, hlen]
      show some (pre.length + ((renderFields kvs).length + 2) + suf.length - 1 - suf.length)
          = some (pre.length + (renderFields kvs).length + 1)
      exact congrArg some (by omega)
    have hdrop : (pre ++ renderJ (Json.obj kvs) ++ suf).drop pre.length
        = renderJ (Json.obj kvs) ++ suf := by
      rw [List.append_assoc, List.drop_left]
    have htake : (renderJ (Json.obj kvs) ++ suf).take
        (pre.length + (renderFields kvs).length + 1 + 1 - pre.length)
        = renderJ (Json.obj kvs) := by
      have h2 : pre.length + (renderFields kvs).length + 1 + 1 - pre.length
          = (renderJ (Json.obj kvs)).length := by
        rw [hR]
        simp only [List.length_append, List.length_cons, List.length_nil]
        omega
      rw [h2, List.take_left]
    rw [safeParse_eq _ _ _ hfirst hlast, hdrop, htake, parseJson_render hwf]
  · intro raw h
    unfold safeParseOllamaJson
    rw [idxOf_single_none raw h]
  · intro raw h
    have hrev : ∀ x ∈ raw.reverse, x ≠ closeBrace :=
      fun x hx => h x (List.mem_reverse.mp hx)
    have hlast : lastIdxOfChar closeBrace raw = none := by
      unfold lastIdxOfChar
      rw [idxOf_single_none raw.reverse hrev]
      rfl
    unfold safeParseOllamaJson
    rw [hlast]
    cases hfi : idxOf [openBrace] raw with
    | none => rfl
    | some i => rfl
  · intro raw i k hi hk hp
    rw [safeParse_eq raw i k hi hk, hp]

/-- C9 counterexample: a prefix that itself contains an opening brace breaks
the recovery, contradicting the unconditional prose-stripping reading: with
one stray opening brace before a well-formed serialized object, the located
span starts at the stray brace, its parse fails, and the call returns the
parse-failure error instead of the object. -/
theorem decoder_counterexample :
    parseJson [openBrace] = none ∧
    safeParseOllamaJson (openBrace :: renderJ jsonA) = .error .parseFailed ∧
    safeParseOllamaJson (openBrace :: renderJ jsonA) ≠ .ok jsonA := by
  refine ⟨rfl, rfl, ?_⟩
  intro hc
  have h2 : (Except.error JsonErr.parseFailed : Except JsonErr Json) = Except.ok jsonA :=
    calc (Except.error JsonErr.parseFailed : Except JsonErr Json)
        = safeParseOllamaJson (openBrace :: renderJ jsonA) := rfl
      _ = Except.ok jsonA := hc
  exact Except.noConfusion h2

theorem decoder_spec_witness :
    safeParseOllamaJson ("x".toList ++ renderJ jsonA ++ "y".toList) = .ok jsonA ∧
    safeParseOllamaJson ("no json here".toList) = .error .noObject := by
  constructor
  · exact decoder_spec.1 ("x".toList) ("y".toList) jsonA
      (WfJson.obj _
        (by intro kv hkv
            simp only [List.mem_singleton] at hkv
            subst hkv
            show wfStr "a".toList
            unfold wfStr
            decide)
        (by intro kv hkv
            simp only [List.mem_singleton] at hkv
            subst hkv
            exact WfJson.num 1))
      ⟨_, rfl⟩ (by decide) (by decide)
  · exact decoder_spec.2.1 _ (by decide)
